import Mathlib

/-!
Verification of the grid-pathfinding and simulation-update core of the
Tower-defense repository.

Conventions of the shallow embedding:
* JavaScript strings are modelled as lists of characters (`Str`).
* JavaScript numbers are modelled as exact numbers: tile indices as `Int`
  or `Nat`, world coordinates and stat values as `ℚ` (and as `ℝ` in the
  projectile system, whose homing step divides by a square root).
  `Infinity` in the distance map is modelled as `⊤ : ℕ∞`.
* A JS `Map` is modelled as an association list in insertion order
  (`Map.set` replaces in place, `Map.delete` removes, iteration follows
  insertion order), and a JS `Set` as a duplicate-free list.
* A comparison `Math.sqrt d ≤ r` on nonnegative `d` is translated to the
  equivalent `0 ≤ r ∧ d ≤ r ^ 2`, and `Math.sqrt d < Math.sqrt d'` to
  `d < d'`; bridging lemmas (`sqrt_le_iff_sq`, `sqrt_lt_sqrt_iff_sq`)
  justify the translation.
* The flow-field grid stores the selected (un-normalised) integer offset
  to the chosen neighbour; the floating normalisation `(dx/len, dy/len)`
  is expressed at statement level over `ℝ`.
-/

namespace TowerDefense

/-- JS strings as lists of characters. -/
abbrev Str := List Char

/-! ## Tiles (src/tiles/TileDefinition.ts, src/tiles/TileMap.ts) -/

/-- A value stored in a tile's property map (`Map<string, any>`): the
repository stores booleans (walkable, buildable, isSpawn, isGoal) and
numbers (color). -/
inductive TileValue where
  | b (v : Bool)
  | n (v : Int)
deriving DecidableEq, Repr

/-- `TileDefinition` from src/tiles/TileDefinition.ts: a type tag plus a
property map. -/
structure TileDefinition where
  ttype : Str
  properties : List (Str × TileValue)
deriving DecidableEq, Repr

/-- `getProperty<boolean>(key, defaultValue)`: `properties.get(key) ?? defaultValue`,
read in a boolean position (JS truthiness for a non-boolean stored value). -/
def TileDefinition.getPropertyB (t : TileDefinition) (key : Str) (dflt : Bool) : Bool :=
  match t.properties.lookup key with
  | some (.b v) => v
  | some (.n v) => v != 0
  | none => dflt

def walkableKey : Str := "walkable".data
def buildableKey : Str := "buildable".data
def isSpawnKey : Str := "isSpawn".data
def isGoalKey : Str := "isGoal".data
def colorKey : Str := "color".data

def GRASS : TileDefinition :=
  ⟨"grass".data, [(walkableKey, .b true), (buildableKey, .b true), (colorKey, .n 0x4CAF50)]⟩

def SPAWN : TileDefinition :=
  ⟨"spawn".data, [(walkableKey, .b true), (buildableKey, .b false), (isSpawnKey, .b true),
    (colorKey, .n 0xFF5722)]⟩

def GOAL : TileDefinition :=
  ⟨"goal".data, [(walkableKey, .b true), (buildableKey, .b false), (isGoalKey, .b true),
    (colorKey, .n 0x2196F3)]⟩

/-- A non-walkable terrain tile, as described in the repository's tile-system
architecture document ("stone": walkable false, buildable false); the
`TileDefinition` constructor is public and the modding architecture admits
arbitrary property maps. -/
def STONE : TileDefinition :=
  ⟨"stone".data, [(walkableKey, .b false), (buildableKey, .b false)]⟩

/-- `TileMap` from src/tiles/TileMap.ts: a `width`×`height` grid of tiles. -/
structure TileMap where
  width : Nat
  height : Nat
  grid : List (List TileDefinition)
deriving DecidableEq, Repr

/-- `getTile(x, y)`: bounds-checked lookup, `null` out of range.  An inner
`Option` bind models the array access `grid[y][x]`. -/
def TileMap.getTile (tm : TileMap) (x y : Int) : Option TileDefinition :=
  if x < 0 ∨ (tm.width : Int) ≤ x ∨ y < 0 ∨ (tm.height : Int) ≤ y then none
  else (tm.grid.get? y.toNat).bind (fun row => row.get? x.toNat)

/-- `setTile(x, y, tile)`: writes the cell when in bounds, otherwise a no-op. -/
def TileMap.setTile (tm : TileMap) (x y : Int) (tile : TileDefinition) : TileMap :=
  if 0 ≤ x ∧ x < (tm.width : Int) ∧ 0 ≤ y ∧ y < (tm.height : Int) then
    { tm with grid :=
        match tm.grid.get? y.toNat with
        | some row => tm.grid.set y.toNat (row.set x.toNat tile)
        | none => tm.grid }
  else tm

/-- `isWalkable(x, y)`: `tile ? tile.getProperty("walkable", false) : false`. -/
def TileMap.isWalkable (tm : TileMap) (x y : Int) : Bool :=
  match tm.getTile x y with
  | some tile => tile.getPropertyB walkableKey false
  | none => false

/-- `isBuildable(x, y)`: `tile ? tile.getProperty("buildable", false) : false`. -/
def TileMap.isBuildable (tm : TileMap) (x y : Int) : Bool :=
  match tm.getTile x y with
  | some tile => tile.getPropertyB buildableKey false
  | none => false

/-! ## Flow field lookup (src/pathfinding/FlowField.ts, getFlowDirection)

The generated grid itself is built below (`generateDistanceMap`,
`flowOffset`); for the lookup contract we only need the stored field. -/

/-- The `FlowField` object as seen by `getFlowDirection`: dimensions plus the
per-cell stored vector.  The stored vector is represented by the integer
offset selected by `generateFlowField` (its floating normalisation keeps
the offset's direction). -/
structure FlowField where
  width : Nat
  height : Nat
  vec : Nat → Nat → Int × Int

/-- `getFlowDirection(x, y)`: floors the continuous coordinates to tile
indices, bounds-checks, and returns the stored vector or `null`. -/
def FlowField.getFlowDirection (ff : FlowField) (x y : ℚ) : Option (Int × Int) :=
  let tileX := ⌊x⌋
  let tileY := ⌊y⌋
  if tileX < 0 ∨ (ff.width : Int) ≤ tileX ∨ tileY < 0 ∨ (ff.height : Int) ≤ tileY then none
  else some (ff.vec tileX.toNat tileY.toNat)

/-- C9: out-of-bounds grid and flow-field lookups are absent results, never
errors: `getTile` returns `null`, `setTile` is a no-op, `isWalkable` and
`isBuildable` return `false`, and `getFlowDirection` returns `null` when the
floored coordinates are out of range. -/
theorem c9_out_of_bounds_absent (tm : TileMap) (x y : Int)
    (h : x < 0 ∨ (tm.width : Int) ≤ x ∨ y < 0 ∨ (tm.height : Int) ≤ y) :
    (tm.getTile x y = none ∧ (∀ tile, tm.setTile x y tile = tm) ∧
      tm.isWalkable x y = false ∧ tm.isBuildable x y = false) ∧
    (∀ (ff : FlowField) (q r : ℚ),
      (⌊q⌋ < 0 ∨ (ff.width : Int) ≤ ⌊q⌋ ∨ ⌊r⌋ < 0 ∨ (ff.height : Int) ≤ ⌊r⌋) →
      ff.getFlowDirection q r = none) := by
  have hget : tm.getTile x y = none := by
    unfold TileMap.getTile
    exact if_pos h
  refine ⟨⟨hget, ?_, ?_, ?_⟩, ?_⟩
  · intro tile
    unfold TileMap.setTile
    rw [if_neg]
    rintro ⟨h1, h2, h3, h4⟩
    rcases h with h | h | h | h
    · exact absurd h1 (not_le.mpr h)
    · exact absurd h2 (not_lt.mpr h)
    · exact absurd h3 (not_le.mpr h)
    · exact absurd h4 (not_lt.mpr h)
  · unfold TileMap.isWalkable
    rw [hget]
  · unfold TileMap.isBuildable
    rw [hget]
  · intro ff q r hff
    unfold FlowField.getFlowDirection
    exact if_pos hff

/-- Witness for C9 at a concrete out-of-bounds coordinate. -/
theorem c9_out_of_bounds_absent_witness :
    (TileMap.getTile ⟨2, 2, [[GRASS, GRASS], [GRASS, GRASS]]⟩ (-1) 0 = none ∧
      (∀ tile, TileMap.setTile ⟨2, 2, [[GRASS, GRASS], [GRASS, GRASS]]⟩ (-1) 0 tile =
        ⟨2, 2, [[GRASS, GRASS], [GRASS, GRASS]]⟩) ∧
      TileMap.isWalkable ⟨2, 2, [[GRASS, GRASS], [GRASS, GRASS]]⟩ (-1) 0 = false ∧
      TileMap.isBuildable ⟨2, 2, [[GRASS, GRASS], [GRASS, GRASS]]⟩ (-1) 0 = false) ∧
    (∀ (ff : FlowField) (q r : ℚ),
      (⌊q⌋ < 0 ∨ (ff.width : Int) ≤ ⌊q⌋ ∨ ⌊r⌋ < 0 ∨ (ff.height : Int) ≤ ⌊r⌋) →
      ff.getFlowDirection q r = none) :=
  c9_out_of_bounds_absent ⟨2, 2, [[GRASS, GRASS], [GRASS, GRASS]]⟩ (-1) 0
    (Or.inl (by decide))

/-! ## Entity store (src/ecs/EntityManager.ts)

JS `Map`s are modelled as insertion-ordered association lists and JS `Set`s
as duplicate-free lists; `mapGet`/`mapSet`/`mapDelete` model
`Map.get`/`Map.set`/`Map.delete`. -/

def mapGet {α : Type _} : List (Str × α) → Str → Option α
  | [], _ => none
  | p :: rest, k => if p.1 = k then some p.2 else mapGet rest k

def mapSet {α : Type _} (l : List (Str × α)) (k : Str) (v : α) : List (Str × α) :=
  if (mapGet l k).isSome then l.map (fun p => if p.1 = k then (k, v) else p)
  else l ++ [(k, v)]

def mapDelete {α : Type _} (l : List (Str × α)) (k : Str) : List (Str × α) :=
  l.filter (fun p => p.1 ≠ k)

def setAdd (l : List Str) (x : Str) : List Str :=
  if x ∈ l then l else l ++ [x]

def setDelete (l : List Str) (x : Str) : List Str :=
  l.filter (fun y => y ≠ x)

/-- An entity as the manager sees it: its `id` and the key set of its
`components` map (component values are never read by the manager). -/
structure Entity where
  id : Str
  comps : List Str
deriving DecidableEq, Repr

/-- The `EntityManager` state: `entities`, `componentIndex`, `queryCache`. -/
structure EntityManager where
  entities : List (Str × Entity)
  componentIndex : List (Str × List Str)
  queryCache : List (Str × List Entity)
deriving DecidableEq, Repr

/-- `updateComponentIndex`: for each component key of the entity, ensure an
index set exists and add the entity id to it. -/
def updateComponentIndex (idx : List (Str × List Str)) (e : Entity) : List (Str × List Str) :=
  e.comps.foldl (fun idx ct =>
    match mapGet idx ct with
    | some s => mapSet idx ct (setAdd s e.id)
    | none => idx ++ [(ct, [e.id])]) idx

/-- `removeFromComponentIndex`: delete the entity id from each of its
component index sets, dropping a set that becomes empty. -/
def removeFromComponentIndex (idx : List (Str × List Str)) (e : Entity) : List (Str × List Str) :=
  e.comps.foldl (fun idx ct =>
    match mapGet idx ct with
    | some s =>
        let s' := setDelete s e.id
        if s'.isEmpty then mapDelete idx ct else mapSet idx ct s'
    | none => idx) idx

/-- `addEntity`: store the entity, index its components, invalidate the whole
query cache. -/
def EntityManager.addEntity (em : EntityManager) (e : Entity) : EntityManager :=
  { entities := mapSet em.entities e.id e,
    componentIndex := updateComponentIndex em.componentIndex e,
    queryCache := [] }

/-- `removeEntity`: delete by id (when present), unindex, invalidate the
query cache; a miss leaves the manager unchanged. -/
def EntityManager.removeEntity (em : EntityManager) (id : Str) : EntityManager :=
  match mapGet em.entities id with
  | some e =>
      { entities := mapDelete em.entities id,
        componentIndex := removeFromComponentIndex em.componentIndex e,
        queryCache := [] }
  | none => em

def EntityManager.getEntity (em : EntityManager) (id : Str) : Option Entity :=
  mapGet em.entities id

/-- `executeQuery`: scan all stored entities in insertion order, keeping those
possessing every named component. -/
def EntityManager.executeQuery (em : EntityManager) (componentTypes : List Str) : List Entity :=
  (em.entities.map Prod.snd).filter (fun e => componentTypes.all (fun t => t ∈ e.comps))

/-- The default JS `Array.prototype.sort` comparator on strings: lexicographic
by character code. -/
def strLeB : Str → Str → Bool
  | [], _ => true
  | _ :: _, [] => false
  | a :: as, b :: bs =>
      if a.toNat < b.toNat then true
      else if b.toNat < a.toNat then false
      else strLeB as bs

/-- `componentTypes.sort().join(',')`: the join half. -/
def joinComma : List Str → Str
  | [] => []
  | [s] => s
  | s :: s2 :: rest => s ++ (',' :: joinComma (s2 :: rest))

/-- The cache key `componentTypes.sort().join(',')`. -/
def queryKeyOf (componentTypes : List Str) : Str :=
  joinComma (componentTypes.mergeSort strLeB)

/-- `withComponents`: canonicalize the (mutated-in-place, hence returned)
name list, serve from the cache when possible, else scan, cache and return.
The result triple is (returned list, the caller's array after the call,
the manager state after the call). -/
def EntityManager.withComponents (em : EntityManager) (componentTypes : List Str) :
    List Entity × List Str × EntityManager :=
  let sorted := componentTypes.mergeSort strLeB
  let queryKey := joinComma sorted
  match mapGet em.queryCache queryKey with
  | some res => (res, sorted, em)
  | none =>
      let res := em.executeQuery sorted
      (res, sorted, { em with queryCache := mapSet em.queryCache queryKey res })

/-- One step of the manager's public mutation interface. -/
inductive EMOp where
  | add (e : Entity)
  | remove (id : Str)
  | query (names : List Str)

def applyOp (em : EntityManager) : EMOp → EntityManager
  | .add e => em.addEntity e
  | .remove id => em.removeEntity id
  | .query ns => (em.withComponents ns).2.2

def emptyManager : EntityManager := ⟨[], [], []⟩

def runOps (ops : List EMOp) : EntityManager := ops.foldl applyOp emptyManager

/-! ### C10: `withComponents` sorts its argument in place -/

theorem withComponents_arg (em : EntityManager) (ns : List Str) :
    (em.withComponents ns).2.1 = ns.mergeSort strLeB := by
  simp only [EntityManager.withComponents]
  split <;> rfl

theorem strLeB_total (a b : Str) : (strLeB a b || strLeB b a) = true := by
  induction a generalizing b with
  | nil => simp [strLeB]
  | cons c as ih =>
    cases b with
    | nil => simp [strLeB]
    | cons d bs =>
      rcases Nat.lt_trichotomy c.toNat d.toNat with h | h | h
      · simp [strLeB, h]
      · simp [strLeB, h, Nat.lt_irrefl, ih bs]
      · simp [strLeB, h, Nat.lt_asymm h]

theorem strLeB_trans (a b c : Str) (hab : strLeB a b = true) (hbc : strLeB b c = true) :
    strLeB a c = true := by
  induction a generalizing b c with
  | nil => simp [strLeB]
  | cons x as ih =>
    cases b with
    | nil => simp [strLeB] at hab
    | cons y bs =>
      cases c with
      | nil => simp [strLeB] at hbc
      | cons z cs =>
        simp only [strLeB] at hab hbc ⊢
        by_cases hxy : x.toNat < y.toNat
        · by_cases hyz : y.toNat < z.toNat
          · simp [Nat.lt_trans hxy hyz]
          · by_cases hzy : z.toNat < y.toNat
            · simp [hyz, hzy] at hbc
            · have he : y.toNat = z.toNat :=
                Nat.le_antisymm (Nat.le_of_not_lt hzy) (Nat.le_of_not_lt hyz)
              simp [he ▸ hxy]
        · by_cases hyx : y.toNat < x.toNat
          · simp [hxy, hyx] at hab
          · have hxy2 : x.toNat = y.toNat :=
              Nat.le_antisymm (Nat.le_of_not_lt hyx) (Nat.le_of_not_lt hxy)
            simp [hxy, hyx] at hab
            by_cases hyz : y.toNat < z.toNat
            · simp [hxy2 ▸ hyz]
            · by_cases hzy : z.toNat < y.toNat
              · simp [hyz, hzy] at hbc
              · have hyz2 : y.toNat = z.toNat :=
                  Nat.le_antisymm (Nat.le_of_not_lt hzy) (Nat.le_of_not_lt hyz)
                simp [hyz, hzy] at hbc
                have hxz : ¬ x.toNat < z.toNat := by
                  rw [hxy2, hyz2]; exact Nat.lt_irrefl _
                have hzx : ¬ z.toNat < x.toNat := by
                  rw [hxy2, hyz2]; exact Nat.lt_irrefl _
                simp [hxz, hzx, ih bs cs hab hbc]

/-- C10: every `withComponents(componentTypes)` call leaves the caller's
array permuted into lexicographically sorted order (JS `sort()` mutates in
place), and in particular there are inputs it does not leave unchanged. -/
theorem c10_with_components_sorts_argument (em : EntityManager) (componentTypes : List Str) :
    ((em.withComponents componentTypes).2.1).Perm componentTypes ∧
    ((em.withComponents componentTypes).2.1).Pairwise (fun a b => strLeB a b = true) ∧
    ∃ ns : List Str, (em.withComponents ns).2.1 ≠ ns := by
  rw [withComponents_arg]
  refine ⟨List.mergeSort_perm componentTypes strLeB, ?_, ?_⟩
  · exact List.sorted_mergeSort (fun a b c => strLeB_trans a b c) strLeB_total componentTypes
  · refine ⟨["b".data, "a".data], ?_⟩
    rw [withComponents_arg]
    intro h
    have hs := List.sorted_mergeSort (fun a b c => strLeB_trans a b c)
      strLeB_total ["b".data, "a".data]
    rw [h] at hs
    have := (List.pairwise_cons.mp hs).1 ("a".data) (by simp)
    exact absurd this (by decide)

/-! ### C3: query cache coherence

The cache key is `componentTypes.sort().join(',')`.  Distinct queries can
collide on the key (a name containing `','`, or an empty name), making the
cache return a wrong entry — the counterexample below.  For nonempty,
comma-free names the key is injective up to permutation and coherence
holds. -/

/-- A component name that cannot collide inside the joined cache key:
nonempty and comma-free. -/
def GoodName (n : Str) : Prop := n ≠ [] ∧ ',' ∉ n

instance : DecidablePred GoodName := fun n => by unfold GoodName; infer_instance

theorem append_determined : ∀ (a : Str) {b s t : Str}, a ++ s = b ++ t → ',' ∉ a → ',' ∉ b →
    (s = [] ∨ s.head? = some ',') → (t = [] ∨ t.head? = some ',') → a = b := by
  intro a
  induction a with
  | nil =>
    intro b s t heq _ hb hs _
    cases b with
    | nil => rfl
    | cons d b2 =>
      exfalso
      simp only [List.nil_append] at heq
      rcases hs with hs | hs
      · rw [hs] at heq
        simp at heq
      · rw [heq] at hs
        simp only [List.cons_append, List.head?_cons, Option.some.injEq] at hs
        exact hb (hs ▸ List.mem_cons_self d b2)
  | cons c a2 ih =>
    intro b s t heq ha hb hs ht
    cases b with
    | nil =>
      exfalso
      simp only [List.nil_append] at heq
      rcases ht with ht | ht
      · rw [ht] at heq
        simp at heq
      · rw [← heq] at ht
        simp only [List.cons_append, List.head?_cons, Option.some.injEq] at ht
        exact ha (ht ▸ List.mem_cons_self c a2)
    | cons d b2 =>
      simp only [List.cons_append, List.cons.injEq] at heq
      obtain ⟨hcd, htail⟩ := heq
      have := ih htail (fun hm => ha (List.mem_cons_of_mem c hm))
        (fun hm => hb (List.mem_cons_of_mem d hm)) hs ht
      rw [hcd, this]

theorem joinComma_inj : ∀ (as bs : List Str), (∀ a ∈ as, GoodName a) →
    (∀ b ∈ bs, GoodName b) → joinComma as = joinComma bs → as = bs := by
  intro as
  induction as with
  | nil =>
    intro bs _ hbs heq
    cases bs with
    | nil => rfl
    | cons b bs2 =>
      exfalso
      cases bs2 with
      | nil =>
        simp only [joinComma] at heq
        exact (hbs b (List.mem_cons_self b [])).1 heq.symm
      | cons b2 r =>
        simp only [joinComma] at heq
        exact List.append_ne_nil_of_right_ne_nil b (List.cons_ne_nil _ _) heq.symm
  | cons a as2 ih =>
    intro bs has hbs heq
    cases bs with
    | nil =>
      exfalso
      cases as2 with
      | nil =>
        simp only [joinComma] at heq
        exact (has a (List.mem_cons_self a [])).1 heq
      | cons a2 r =>
        simp only [joinComma] at heq
        exact List.append_ne_nil_of_right_ne_nil a (List.cons_ne_nil _ _) heq
    | cons b bs2 =>
      cases as2 with
      | nil =>
        cases bs2 with
        | nil =>
          simp only [joinComma] at heq
          rw [heq]
        | cons b2 r =>
          exfalso
          simp only [joinComma] at heq
          exact (has a (List.mem_cons_self a [])).2
            (heq ▸ List.mem_append_right b (List.mem_cons_self ',' _))
      | cons a2 r =>
        cases bs2 with
        | nil =>
          exfalso
          simp only [joinComma] at heq
          exact (hbs b (List.mem_cons_self b [])).2
            (heq ▸ List.mem_append_right a (List.mem_cons_self ',' _))
        | cons b2 r2 =>
          simp only [joinComma] at heq
          have hab : a = b := append_determined a heq (has a (List.mem_cons_self a _)).2
            (hbs b (List.mem_cons_self b _)).2 (Or.inr rfl) (Or.inr rfl)
          subst hab
          have htail := List.append_cancel_left heq
          simp only [List.cons.injEq, true_and] at htail
          have := ih (b2 :: r2) (fun x hx => has x (List.mem_cons_of_mem a hx))
            (fun x hx => hbs x (List.mem_cons_of_mem a hx)) htail
          rw [this]

theorem perm_of_queryKey_eq {ns₁ ns₂ : List Str} (h₁ : ∀ n ∈ ns₁, GoodName n)
    (h₂ : ∀ n ∈ ns₂, GoodName n) (hk : queryKeyOf ns₁ = queryKeyOf ns₂) :
    ns₁.Perm ns₂ := by
  have hsort : ns₁.mergeSort strLeB = ns₂.mergeSort strLeB := by
    apply joinComma_inj _ _ ?_ ?_ hk
    · exact fun a ha => h₁ a ((List.mergeSort_perm ns₁ strLeB).mem_iff.mp ha)
    · exact fun a ha => h₂ a ((List.mergeSort_perm ns₂ strLeB).mem_iff.mp ha)
  exact (List.mergeSort_perm ns₁ strLeB).symm.trans
    (hsort ▸ List.mergeSort_perm ns₂ strLeB)

theorem executeQuery_congr (em : EntityManager) {ns₁ ns₂ : List Str} (h : ns₁.Perm ns₂) :
    em.executeQuery ns₁ = em.executeQuery ns₂ := by
  unfold EntityManager.executeQuery
  apply List.filter_congr
  intro e _
  rw [Bool.eq_iff_iff]
  simp only [List.all_eq_true]
  exact ⟨fun hall t ht => hall t (h.mem_iff.mpr ht), fun hall t ht => hall t (h.mem_iff.mp ht)⟩

theorem mapGet_mem {α : Type _} : ∀ {l : List (Str × α)} {k : Str} {v : α},
    mapGet l k = some v → (k, v) ∈ l := by
  intro l
  induction l with
  | nil => intro k v h; simp [mapGet] at h
  | cons p rest ih =>
    intro k v h
    simp only [mapGet] at h
    by_cases hk : p.1 = k
    · rw [if_pos hk] at h
      obtain rfl := Option.some.inj h
      subst hk
      exact List.mem_cons.mpr (Or.inl rfl)
    · rw [if_neg hk] at h
      exact List.mem_cons_of_mem p (ih h)

/-- The cache-coherence invariant: every cached entry answers, for every
well-formed name list mapping to its key, exactly the current scan. -/
def CacheOK (em : EntityManager) : Prop :=
  ∀ p ∈ em.queryCache, ∀ ns : List Str, (∀ n ∈ ns, GoodName n) →
    queryKeyOf ns = p.1 → p.2 = em.executeQuery ns

def opGood : EMOp → Prop
  | .query ns => ∀ n ∈ ns, GoodName n
  | _ => True

theorem withComponents_coherent (em : EntityManager) (hok : CacheOK em) (ns : List Str)
    (hns : ∀ n ∈ ns, GoodName n) :
    (em.withComponents ns).1 = em.executeQuery ns := by
  simp only [EntityManager.withComponents]
  split
  case _ res heq =>
    exact hok _ (mapGet_mem heq) ns hns rfl
  case _ heq =>
    exact executeQuery_congr em (List.mergeSort_perm ns strLeB)

theorem cacheOK_applyOp (em : EntityManager) (op : EMOp) (hok : CacheOK em)
    (hop : opGood op) : CacheOK (applyOp em op) := by
  cases op with
  | add e =>
    intro p hp
    simp [applyOp, EntityManager.addEntity] at hp
  | remove id =>
    simp only [applyOp, EntityManager.removeEntity]
    split
    · intro p hp; simp at hp
    · exact hok
  | query ns =>
    simp only [applyOp, EntityManager.withComponents]
    split
    · exact hok
    case _ heq =>
      intro p hp ns2 hns2 hkey
      simp only [mapSet, heq, Option.isSome_none, Bool.false_eq_true, if_false] at hp
      rcases List.mem_append.mp hp with hp | hp
      · exact hok p hp ns2 hns2 hkey
      · simp only [List.mem_singleton] at hp
        subst hp
        have hperm : ns.Perm ns2 := perm_of_queryKey_eq hop hns2 hkey.symm
        calc em.executeQuery (ns.mergeSort strLeB)
            = em.executeQuery ns := executeQuery_congr em (List.mergeSort_perm ns strLeB)
        _ = em.executeQuery ns2 := executeQuery_congr em hperm

theorem cacheOK_runOps (ops : List EMOp) (hops : ∀ op ∈ ops, opGood op) :
    CacheOK (runOps ops) := by
  suffices h : ∀ em, CacheOK em → CacheOK (ops.foldl applyOp em) by
    apply h
    intro p hp
    simp [emptyManager] at hp
  induction ops with
  | nil => exact fun em h => h
  | cons op rest ih =>
    intro em hem
    exact ih (fun o ho => hops o (List.mem_cons_of_mem op ho))
      (applyOp em op) (cacheOK_applyOp em op hem (hops op (List.mem_cons_self op rest)))

/-- C3 (amended): for every sequence of add/remove/query operations whose
queried component names are nonempty and comma-free, each
`withComponents(names)` call returns exactly the currently stored entities
possessing every named component — never a stale pre-mutation result. -/
theorem c3_query_cache_coherence (ops : List EMOp) (hops : ∀ op ∈ ops, opGood op)
    (ns : List Str) (hns : ∀ n ∈ ns, GoodName n) :
    ((runOps ops).withComponents ns).1 =
      ((runOps ops).entities.map Prod.snd).filter (fun e => ns.all (fun t => t ∈ e.comps)) :=
  withComponents_coherent _ (cacheOK_runOps ops hops) ns hns

/-- An entity with components named "A" and "B". -/
def entAB : Entity := ⟨"e".data, ["A".data, "B".data]⟩

/-- C3 counterexample: after caching the query ["A", "B"] (cache key "A,B"),
the query for the single component named "A,B" hits the same cache key and
returns the entity even though it does not possess a component "A,B" — the
returned list is not the set of currently stored entities satisfying the
predicate, refuting the claim for arbitrary name lists. -/
theorem c3_counterexample :
    ((runOps [.add entAB, .query ["A".data, "B".data]]).withComponents ["A,B".data]).1 ≠
      (((runOps [.add entAB, .query ["A".data, "B".data]]).entities.map Prod.snd).filter
        (fun e => ["A,B".data].all (fun t => t ∈ e.comps))) := by
  have hms : (["A".data, "B".data] : List Str).mergeSort strLeB = ["A".data, "B".data] := by
    simp [List.mergeSort, List.splitInTwo, List.cons_merge_cons, List.nil_merge, strLeB]
  simp only [runOps, List.foldl, applyOp, EntityManager.withComponents,
    EntityManager.addEntity, EntityManager.executeQuery, emptyManager, hms,
    List.mergeSort_singleton]
  decide

/-- Witness for the amended C3 at a concrete operation sequence. -/
theorem c3_query_cache_coherence_witness :
    ((runOps [.add entAB, .query ["A".data]]).withComponents ["A".data]).1 =
      (((runOps [.add entAB, .query ["A".data]]).entities.map Prod.snd).filter
        (fun e => ["A".data].all (fun t => t ∈ e.comps))) := by
  apply c3_query_cache_coherence [.add entAB, .query ["A".data]] ?_ ["A".data] ?_
  · intro op hop
    rcases List.mem_cons.mp hop with rfl | hop
    · trivial
    · rcases List.mem_cons.mp hop with rfl | hop
      · intro n hn
        obtain rfl := List.mem_singleton.mp hn
        exact ⟨by decide, by decide⟩
      · cases hop
  · intro n hn
    obtain rfl := List.mem_singleton.mp hn
    exact ⟨by decide, by decide⟩

/-! ## Attack system (src/systems/AttackSystem.ts)

`update` queries towers (Position+Attack+Targeting+Timing) and enemies
(Position+Health) and, for each off-cooldown tower, picks a target with
`findTarget` and fires a projectile.  `findTarget` reads only the enemy
positions and ids; coordinates and stats are `ℚ` (exact floats).  The
comparisons `distance <= range` and `distance < closestDistance` on
`distance = Math.sqrt(d2)` are translated to the equivalent squared
comparisons `0 ≤ range ∧ d2 ≤ range²` and `d2 < closest²` (see
`sqrt_le_iff_sq`, `sqrt_lt_sqrt_iff_sq`); `closestDistance = Infinity` is
the `none` accumulator. -/

/-- A Position+Health query result as `findTarget` consumes it: its id and
position (the health fields are not read by the attack system). -/
structure AEnemy where
  id : Str
  pos : ℚ × ℚ
deriving DecidableEq, Repr

/-- Squared Euclidean distance
`(enemyPos.x - towerPos.x)² + (enemyPos.y - towerPos.y)²`. -/
def dsq (towerPos enemyPos : ℚ × ℚ) : ℚ :=
  (enemyPos.1 - towerPos.1) ^ 2 + (enemyPos.2 - towerPos.2) ^ 2

theorem dsq_nonneg (p q : ℚ × ℚ) : 0 ≤ dsq p q :=
  add_nonneg (sq_nonneg _) (sq_nonneg _)

/-- Bridging lemma: `Math.sqrt d ≤ r ↔ 0 ≤ r ∧ d ≤ r²` for `0 ≤ d`. -/
theorem sqrt_le_iff_sq (d r : ℝ) (hd : 0 ≤ d) :
    Real.sqrt d ≤ r ↔ (0 ≤ r ∧ d ≤ r ^ 2) := by
  constructor
  · intro h
    have hr : 0 ≤ r := le_trans (Real.sqrt_nonneg d) h
    refine ⟨hr, ?_⟩
    have h2 := pow_le_pow_left₀ (Real.sqrt_nonneg d) h 2
    rwa [Real.sq_sqrt hd] at h2
  · rintro ⟨hr, hdr⟩
    calc Real.sqrt d ≤ Real.sqrt (r ^ 2) := Real.sqrt_le_sqrt hdr
    _ = r := Real.sqrt_sq hr

/-- Bridging lemma: `Math.sqrt d < Math.sqrt c ↔ d < c` for `0 ≤ d`. -/
theorem sqrt_lt_sqrt_iff_sq (d c : ℝ) (hd : 0 ≤ d) :
    Real.sqrt d < Real.sqrt c ↔ d < c := by
  constructor
  · intro h
    by_contra hcd
    exact absurd (Real.sqrt_le_sqrt (not_lt.mp hcd)) (not_le.mpr h)
  · exact Real.sqrt_lt_sqrt hd

/-- The qualification test of the squared translation: the enemy is within
range (`Math.sqrt (dsq) ≤ range`). -/
def Qual (towerPos : ℚ × ℚ) (range : ℚ) (e : AEnemy) : Prop :=
  0 ≤ range ∧ dsq towerPos e.pos ≤ range ^ 2

instance (towerPos : ℚ × ℚ) (range : ℚ) : DecidablePred (Qual towerPos range) := fun e => by
  unfold Qual; infer_instance

/-- `Qual` is exactly the source comparison `distance <= range`. -/
theorem Qual_iff_sqrt_le (towerPos : ℚ × ℚ) (range : ℚ) (e : AEnemy) :
    Qual towerPos range e ↔
      Real.sqrt ((dsq towerPos e.pos : ℚ) : ℝ) ≤ (range : ℝ) := by
  rw [sqrt_le_iff_sq _ _ (by exact_mod_cast dsq_nonneg towerPos e.pos)]
  unfold Qual
  constructor
  · rintro ⟨h1, h2⟩
    constructor
    · exact_mod_cast h1
    · exact_mod_cast h2
  · rintro ⟨h1, h2⟩
    constructor
    · exact_mod_cast h1
    · exact_mod_cast h2

/-- The body of `findTarget`'s loop: keep the enemy when `distance <= range`
and `distance < closestDistance` (squared translation; `none` is the
initial `Infinity`). -/
def stepSel (towerPos : ℚ × ℚ) (range : ℚ) (acc : Option AEnemy × Option ℚ)
    (enemy : AEnemy) : Option AEnemy × Option ℚ :=
  let d2 := dsq towerPos enemy.pos
  match acc.2 with
  | none => if 0 ≤ range ∧ d2 ≤ range ^ 2 then (some enemy, some d2) else acc
  | some cd => if (0 ≤ range ∧ d2 ≤ range ^ 2) ∧ d2 < cd then (some enemy, some d2) else acc

/-- `AttackSystem.findTarget`: scan the enemy list with a running
strictly-decreasing minimum, starting from `closestDistance = Infinity`. -/
def findTarget (towerPos : ℚ × ℚ) (range : ℚ) (enemies : List AEnemy) : Option AEnemy :=
  (enemies.foldl (stepSel towerPos range) (none, none)).1

/-- Reference recursion computing the same selection: the first qualifying
enemy attaining the (strictly) minimal distance. -/
def selectMin (towerPos : ℚ × ℚ) (range : ℚ) : List AEnemy → Option (AEnemy × ℚ)
  | [] => none
  | e :: rest =>
      let d2 := dsq towerPos e.pos
      if 0 ≤ range ∧ d2 ≤ range ^ 2 then
        match selectMin towerPos range rest with
        | none => some (e, d2)
        | some (e2, c2) => if c2 < d2 then some (e2, c2) else some (e, d2)
      else selectMin towerPos range rest

theorem foldl_stepSel_some (towerPos : ℚ × ℚ) (range : ℚ) (l : List AEnemy)
    (e0 : AEnemy) (c0 : ℚ) :
    l.foldl (stepSel towerPos range) (some e0, some c0) =
      match selectMin towerPos range l with
      | some (e, c) => if c < c0 then (some e, some c) else (some e0, some c0)
      | none => (some e0, some c0) := by
  induction l generalizing e0 c0 with
  | nil => rfl
  | cons e l ih =>
    rw [List.foldl_cons]
    by_cases hq : 0 ≤ range ∧ dsq towerPos e.pos ≤ range ^ 2
    · by_cases hlt : dsq towerPos e.pos < c0
      · have hstep : stepSel towerPos range (some e0, some c0) e =
            (some e, some (dsq towerPos e.pos)) := by
          simp [stepSel, hq, hlt]
        rw [hstep, ih]
        simp only [selectMin, if_pos hq]
        cases hsel : selectMin towerPos range l with
        | none => simp [hlt]
        | some p =>
          obtain ⟨e2, c2⟩ := p
          by_cases hc2 : c2 < dsq towerPos e.pos
          · simp [hc2, lt_trans hc2 hlt]
          · simp [hc2, hlt]
      · have hstep : stepSel towerPos range (some e0, some c0) e = (some e0, some c0) := by
          simp [stepSel, hlt]
        rw [hstep, ih]
        simp only [selectMin, if_pos hq]
        cases hsel : selectMin towerPos range l with
        | none => simp [hlt]
        | some p =>
          obtain ⟨e2, c2⟩ := p
          by_cases hc2 : c2 < dsq towerPos e.pos
          · simp [hc2]
          · have : ¬ c2 < c0 := fun h =>
              hc2 (lt_of_lt_of_le h (le_of_not_lt hlt))
            simp [hc2, hlt, this]
    · have hstep : stepSel towerPos range (some e0, some c0) e = (some e0, some c0) := by
        simp [stepSel, hq]
      rw [hstep, ih]
      simp only [selectMin, if_neg hq]

theorem foldl_stepSel_none (towerPos : ℚ × ℚ) (range : ℚ) (l : List AEnemy) :
    l.foldl (stepSel towerPos range) (none, none) =
      match selectMin towerPos range l with
      | some (e, c) => (some e, some c)
      | none => (none, none) := by
  induction l with
  | nil => rfl
  | cons e l ih =>
    rw [List.foldl_cons]
    by_cases hq : 0 ≤ range ∧ dsq towerPos e.pos ≤ range ^ 2
    · have hstep : stepSel towerPos range (none, none) e =
          (some e, some (dsq towerPos e.pos)) := by
        simp [stepSel, hq]
      rw [hstep, foldl_stepSel_some]
      simp only [selectMin, if_pos hq]
      cases hsel : selectMin towerPos range l with
      | none => simp
      | some p =>
        obtain ⟨e2, c2⟩ := p
        by_cases hc2 : c2 < dsq towerPos e.pos
        · simp [hc2]
        · simp [hc2]
    · have hstep : stepSel towerPos range (none, none) e = (none, none) := by
        simp [stepSel, hq]
      rw [hstep, ih]
      simp only [selectMin, if_neg hq]

theorem selectMin_eq_none_iff (towerPos : ℚ × ℚ) (range : ℚ) (l : List AEnemy) :
    selectMin towerPos range l = none ↔ ∀ e ∈ l, ¬ Qual towerPos range e := by
  induction l with
  | nil => simp [selectMin]
  | cons e l ih =>
    simp only [selectMin]
    by_cases hq : 0 ≤ range ∧ dsq towerPos e.pos ≤ range ^ 2
    · rw [if_pos hq]
      constructor
      · intro h
        exfalso
        cases hsel : selectMin towerPos range l with
        | none => rw [hsel] at h; simp at h
        | some p =>
          obtain ⟨e2, c2⟩ := p
          rw [hsel] at h
          by_cases hc2 : c2 < dsq towerPos e.pos <;> simp [hc2] at h
      · intro h
        exact absurd hq (h e (List.mem_cons_self e l))
    · rw [if_neg hq, ih]
      constructor
      · intro h e2 he2
        rcases List.mem_cons.mp he2 with rfl | he2
        · exact hq
        · exact h e2 he2
      · exact fun h e2 he2 => h e2 (List.mem_cons_of_mem e he2)

theorem selectMin_some_spec (towerPos : ℚ × ℚ) (range : ℚ) (l : List AEnemy)
    (e : AEnemy) (c : ℚ) (h : selectMin towerPos range l = some (e, c)) :
    c = dsq towerPos e.pos ∧ Qual towerPos range e ∧
    (∀ e2 ∈ l, Qual towerPos range e2 → c ≤ dsq towerPos e2.pos) ∧
    ∃ l1 l2, l = l1 ++ e :: l2 ∧
      ∀ e2 ∈ l1, Qual towerPos range e2 → c < dsq towerPos e2.pos := by
  induction l generalizing e c with
  | nil => simp [selectMin] at h
  | cons a l ih =>
    simp only [selectMin] at h
    by_cases hq : 0 ≤ range ∧ dsq towerPos a.pos ≤ range ^ 2
    · rw [if_pos hq] at h
      split at h
      · rename_i hsel
        obtain ⟨rfl, rfl⟩ : a = e ∧ dsq towerPos a.pos = c := by
          have h2 := Option.some.inj h
          exact ⟨congrArg Prod.fst h2, congrArg Prod.snd h2⟩
        refine ⟨rfl, hq, ?_, [], l, rfl, by simp⟩
        intro e2 he2 hq2
        rcases List.mem_cons.mp he2 with rfl | he2
        · exact le_refl _
        · exact absurd hq2 ((selectMin_eq_none_iff towerPos range l).mp hsel e2 he2)
      · rename_i e2 c2 hsel
        obtain ⟨hc2eq, hqual2, hmin2, l1, l2, hsplit, hfirst⟩ :=
          ih e2 c2 hsel
        by_cases hc2 : c2 < dsq towerPos a.pos
        · rw [if_pos hc2] at h
          obtain ⟨rfl, rfl⟩ : e2 = e ∧ c2 = c := by
            have h2 := Option.some.inj h
            exact ⟨congrArg Prod.fst h2, congrArg Prod.snd h2⟩
          refine ⟨hc2eq, hqual2, ?_, a :: l1, l2, by simp [hsplit], ?_⟩
          · intro e3 he3 hq3
            rcases List.mem_cons.mp he3 with rfl | he3
            · exact le_of_lt hc2
            · exact hmin2 e3 he3 hq3
          · intro e3 he3 hq3
            rcases List.mem_cons.mp he3 with rfl | he3
            · exact hc2
            · exact hfirst e3 he3 hq3
        · rw [if_neg hc2] at h
          obtain ⟨rfl, rfl⟩ : a = e ∧ dsq towerPos a.pos = c := by
            have h2 := Option.some.inj h
            exact ⟨congrArg Prod.fst h2, congrArg Prod.snd h2⟩
          refine ⟨rfl, hq, ?_, [], l, rfl, by simp⟩
          intro e3 he3 hq3
          rcases List.mem_cons.mp he3 with rfl | he3
          · exact le_refl _
          · exact le_trans (le_of_not_lt hc2) (hmin2 e3 he3 hq3)
    · rw [if_neg hq] at h
      obtain ⟨hc2eq, hqual2, hmin2, l1, l2, hsplit, hfirst⟩ := ih e c h
      refine ⟨hc2eq, hqual2, ?_, a :: l1, l2, by simp [hsplit], ?_⟩
      · intro e3 he3 hq3
        rcases List.mem_cons.mp he3 with rfl | he3
        · exact absurd hq3 hq
        · exact hmin2 e3 he3 hq3
      · intro e3 he3 hq3
        rcases List.mem_cons.mp he3 with rfl | he3
        · exact absurd hq3 hq
        · exact hfirst e3 he3 hq3

theorem findTarget_eq_none_iff (towerPos : ℚ × ℚ) (range : ℚ) (enemies : List AEnemy) :
    findTarget towerPos range enemies = none ↔ ∀ e ∈ enemies, ¬ Qual towerPos range e := by
  unfold findTarget
  rw [foldl_stepSel_none]
  cases hsel : selectMin towerPos range enemies with
  | none => simpa using (selectMin_eq_none_iff towerPos range enemies).mp hsel
  | some p =>
    obtain ⟨e2, c2⟩ := p
    simp only []
    constructor
    · intro h; simp at h
    · intro h
      exact absurd ((selectMin_eq_none_iff towerPos range enemies).mpr h)
        (by rw [hsel]; simp)

theorem findTarget_eq_some_spec (towerPos : ℚ × ℚ) (range : ℚ) (enemies : List AEnemy)
    (e : AEnemy) (h : findTarget towerPos range enemies = some e) :
    Qual towerPos range e ∧
    (∀ e2 ∈ enemies, Qual towerPos range e2 →
      dsq towerPos e.pos ≤ dsq towerPos e2.pos) ∧
    ∃ l1 l2, enemies = l1 ++ e :: l2 ∧
      ∀ e2 ∈ l1, Qual towerPos range e2 → dsq towerPos e.pos < dsq towerPos e2.pos := by
  unfold findTarget at h
  rw [foldl_stepSel_none] at h
  cases hsel : selectMin towerPos range enemies with
  | none => rw [hsel] at h; simp at h
  | some p =>
    obtain ⟨e2, c2⟩ := p
    rw [hsel] at h
    simp only [Option.some.injEq] at h
    subst h
    obtain ⟨hceq, hqual, hmin, l1, l2, hsplit, hfirst⟩ :=
      selectMin_some_spec towerPos range enemies e2 c2 hsel
    subst hceq
    exact ⟨hqual, hmin, l1, l2, hsplit, hfirst⟩

/-- A Position+Attack+Targeting+Timing query result as `AttackSystem.update`
consumes it (the `strategy`/`lastTargetingTime` fields of Targeting are
never read or written by the system and are omitted). -/
structure ATower where
  id : Str
  pos : ℚ × ℚ
  damage : ℚ
  range : ℚ
  cooldown : ℚ
  currentTarget : Option Str
  lastAttackTime : ℚ
deriving DecidableEq, Repr

/-- A projectile as `createProjectile` (src/entities/ProjectileFactory.ts)
builds it: Position (x, y) plus Projectile {targetId, speed: 200, damage,
lifetime: 3000}. -/
structure AProjectile where
  id : Str
  pos : ℚ × ℚ
  targetId : Str
  speed : ℚ
  damage : ℚ
  lifetime : ℚ
deriving DecidableEq, Repr

def createProjectile (id : Str) (x y : ℚ) (targetId : Str) (damage : ℚ) : AProjectile :=
  ⟨id, (x, y), targetId, 200, damage, 3000⟩

def projectileName (counter : Nat) : Str :=
  ("projectile_" ++ toString counter).data

/-- The per-tower body of `AttackSystem.update`: skip while cooling down;
otherwise target the `findTarget` result (clearing `currentTarget` on a
miss, stamping `lastAttackTime` on a hit). -/
def stepTower (currentTime : ℚ) (enemies : List AEnemy) (t : ATower) : ATower :=
  if currentTime - t.lastAttackTime < t.cooldown then t
  else
    match findTarget t.pos t.range enemies with
    | none => { t with currentTarget := none }
    | some target => { t with currentTarget := some target.id, lastAttackTime := currentTime }

/-- `AttackSystem.update` over the tower and enemy query snapshots: processes
towers in order, threading the projectile id counter and collecting the
created projectiles. -/
def attackUpdate (currentTime : ℚ) (towers : List ATower) (enemies : List AEnemy)
    (counter : Nat) : List ATower × List AProjectile × Nat :=
  match towers with
  | [] => ([], [], counter)
  | t :: rest =>
      if currentTime - t.lastAttackTime < t.cooldown then
        let r := attackUpdate currentTime rest enemies counter
        (t :: r.1, r.2)
      else
        match findTarget t.pos t.range enemies with
        | none =>
            let r := attackUpdate currentTime rest enemies counter
            ({ t with currentTarget := none } :: r.1, r.2)
        | some target =>
            let p := createProjectile (projectileName counter) t.pos.1 t.pos.2 target.id t.damage
            let r := attackUpdate currentTime rest enemies (counter + 1)
            ({ t with currentTarget := some target.id, lastAttackTime := currentTime } :: r.1,
              p :: r.2.1, r.2.2)

theorem attackUpdate_towers (currentTime : ℚ) (towers : List ATower)
    (enemies : List AEnemy) (counter : Nat) :
    (attackUpdate currentTime towers enemies counter).1 =
      towers.map (stepTower currentTime enemies) := by
  induction towers generalizing counter with
  | nil => rfl
  | cons t rest ih =>
    simp only [attackUpdate, stepTower]
    by_cases hcd : currentTime - t.lastAttackTime < t.cooldown
    · simp [stepTower, hcd, ih]
    · cases hft : findTarget t.pos t.range enemies with
      | none => simp [stepTower, hcd, hft, ih]
      | some target => simp [stepTower, hcd, hft, ih]

/-- C4 counterexample: the range test in `findTarget` is `distance <= range`,
not strict: a lone enemy at distance exactly equal to the range (here
`√(3² + 4²) = 5 = range`) is selected, while the claim's strict-less-than
rule would leave the attacker with no target. -/
theorem c4_counterexample :
    findTarget (0, 0) 5 [⟨"n".data, (3, 4)⟩] = some ⟨"n".data, (3, 4)⟩ ∧
    dsq (0, 0) (3, 4) = 5 ^ 2 ∧
    Real.sqrt ((dsq (0, 0) (3, 4) : ℚ) : ℝ) = 5 := by
  refine ⟨by norm_num [findTarget, stepSel, dsq], by norm_num [dsq], ?_⟩
  have h : (dsq (0, 0) (3, 4) : ℚ) = 25 := by norm_num [dsq]
  rw [h]
  rw [show (((25 : ℚ) : ℝ)) = 5 ^ 2 by norm_num]
  exact Real.sqrt_sq (by norm_num)

/-- C4 (amended): on every `AttackSystem.update`, an off-cooldown attacker
selects the entity from the Position+Health snapshot nearest to it in
Euclidean distance among those at distance less than OR EQUAL to its range
(the source comparison is `distance <= range`), using a strictly-less-than
running minimum so that ties keep the first entity in enumeration order;
when no entity qualifies it selects no target. -/
theorem c4_attack_target_selection (currentTime : ℚ) (enemies : List AEnemy) (t : ATower)
    (hoff : ¬(currentTime - t.lastAttackTime < t.cooldown)) :
    (findTarget t.pos t.range enemies = none →
      (stepTower currentTime enemies t).currentTarget = none ∧
      ∀ e ∈ enemies, ¬ Qual t.pos t.range e) ∧
    (∀ e, findTarget t.pos t.range enemies = some e →
      (stepTower currentTime enemies t).currentTarget = some e.id ∧
      Qual t.pos t.range e ∧
      (∀ e2 ∈ enemies, Qual t.pos t.range e2 →
        dsq t.pos e.pos ≤ dsq t.pos e2.pos) ∧
      ∃ l1 l2, enemies = l1 ++ e :: l2 ∧
        ∀ e2 ∈ l1, Qual t.pos t.range e2 → dsq t.pos e.pos < dsq t.pos e2.pos) := by
  constructor
  · intro hft
    refine ⟨?_, (findTarget_eq_none_iff t.pos t.range enemies).mp hft⟩
    simp [stepTower, hoff, hft]
  · intro e hft
    obtain ⟨hq, hmin, hsplit⟩ := findTarget_eq_some_spec t.pos t.range enemies e hft
    refine ⟨?_, hq, hmin, hsplit⟩
    simp [stepTower, hoff, hft]

/-- Witness for the amended C4: a tower at the origin with range 5 and two
enemies, at distance 5 and at distance √2, targets the strictly nearer one. -/
theorem c4_attack_target_selection_witness :
    (findTarget (0, 0) 5 [⟨"f".data, (3, 4)⟩, ⟨"n".data, (1, 1)⟩] = none →
      (stepTower 2000 [⟨"f".data, (3, 4)⟩, ⟨"n".data, (1, 1)⟩]
        ⟨"t".data, (0, 0), 10, 5, 1000, none, 0⟩).currentTarget = none ∧
      ∀ e ∈ [⟨"f".data, (3, 4)⟩, ⟨"n".data, (1, 1)⟩], ¬ Qual (0, 0) 5 e) ∧
    (∀ e, findTarget (0, 0) 5 [⟨"f".data, (3, 4)⟩, ⟨"n".data, (1, 1)⟩] = some e →
      (stepTower 2000 [⟨"f".data, (3, 4)⟩, ⟨"n".data, (1, 1)⟩]
        ⟨"t".data, (0, 0), 10, 5, 1000, none, 0⟩).currentTarget = some e.id ∧
      Qual (0, 0) 5 e ∧
      (∀ e2 ∈ [⟨"f".data, (3, 4)⟩, ⟨"n".data, (1, 1)⟩], Qual (0, 0) 5 e2 →
        dsq (0, 0) e.pos ≤ dsq (0, 0) e2.pos) ∧
      ∃ l1 l2, ([⟨"f".data, (3, 4)⟩, ⟨"n".data, (1, 1)⟩] : List AEnemy) = l1 ++ e :: l2 ∧
        ∀ e2 ∈ l1, Qual (0, 0) 5 e2 → dsq (0, 0) e.pos < dsq (0, 0) e2.pos) :=
  c4_attack_target_selection 2000 [⟨"f".data, (3, 4)⟩, ⟨"n".data, (1, 1)⟩]
    ⟨"t".data, (0, 0), 10, 5, 1000, none, 0⟩ (by norm_num)

/-- C6: an off-cooldown attacker that finds no valid target keeps its
`lastAttackTime` unchanged and only clears `currentTarget`; consequently, on
any later update (monotone clock) in which a target is found, it fires
immediately: it records the target, stamps the new time, and emits exactly
one projectile bound to the target with its damage. -/
theorem c6_attack_miss_keeps_cooldown (currentTime : ℚ) (enemies : List AEnemy) (t : ATower)
    (hoff : ¬(currentTime - t.lastAttackTime < t.cooldown))
    (hmiss : findTarget t.pos t.range enemies = none) :
    (stepTower currentTime enemies t).lastAttackTime = t.lastAttackTime ∧
    stepTower currentTime enemies t = { t with currentTarget := none } ∧
    ∀ (t2 : ℚ) (enemies2 : List AEnemy) (e : AEnemy) (c : Nat), currentTime ≤ t2 →
      findTarget t.pos t.range enemies2 = some e →
      attackUpdate t2 [stepTower currentTime enemies t] enemies2 c =
        ([{ t with currentTarget := some e.id, lastAttackTime := t2 }],
          [createProjectile (projectileName c) t.pos.1 t.pos.2 e.id t.damage], c + 1) := by
  have hstep : stepTower currentTime enemies t = { t with currentTarget := none } := by
    simp [stepTower, hoff, hmiss]
  refine ⟨by rw [hstep], hstep, ?_⟩
  intro t2 enemies2 e c ht2 hft2
  rw [hstep]
  have hoff2 : ¬(t2 - t.lastAttackTime < t.cooldown) := by
    intro hlt
    apply hoff
    calc currentTime - t.lastAttackTime ≤ t2 - t.lastAttackTime := by linarith
    _ < t.cooldown := hlt
  simp only [attackUpdate, hoff2, if_neg, hft2]
  simp [attackUpdate]

/-- Witness for C6: tower off cooldown, empty snapshot (miss), then a target
at distance √2 on a later tick. -/
theorem c6_attack_miss_keeps_cooldown_witness :
    (stepTower 2000 [] ⟨"t".data, (0, 0), 10, 5, 1000, none, 0⟩).lastAttackTime =
      (⟨"t".data, (0, 0), 10, 5, 1000, none, 0⟩ : ATower).lastAttackTime ∧
    stepTower 2000 [] ⟨"t".data, (0, 0), 10, 5, 1000, none, 0⟩ =
      { (⟨"t".data, (0, 0), 10, 5, 1000, none, 0⟩ : ATower) with currentTarget := none } ∧
    ∀ (t2 : ℚ) (enemies2 : List AEnemy) (e : AEnemy) (c : Nat), 2000 ≤ t2 →
      findTarget (0, 0) 5 enemies2 = some e →
      attackUpdate t2 [stepTower 2000 [] ⟨"t".data, (0, 0), 10, 5, 1000, none, 0⟩] enemies2 c =
        ([{ (⟨"t".data, (0, 0), 10, 5, 1000, none, 0⟩ : ATower) with
              currentTarget := some e.id, lastAttackTime := t2 }],
          [createProjectile (projectileName c) 0 0 e.id 10], c + 1) :=
  c6_attack_miss_keeps_cooldown 2000 [] ⟨"t".data, (0, 0), 10, 5, 1000, none, 0⟩
    (by norm_num) rfl

/-! ## Movement system (src/systems/MovementSystem.ts)

`update` iterates the Position+Movement query; the bound flow field is the
injected collaborator, abstracted as its `getFlowDirection` signature
(continuous position in, optional direction out). -/

/-- A Position+Movement query result: position, speeds and direction. -/
structure MEntity where
  id : Str
  pos : ℚ × ℚ
  baseSpeed : ℚ
  currentSpeed : ℚ
  direction : ℚ × ℚ
deriving DecidableEq, Repr

/-- The per-entity body of `MovementSystem.update`: overwrite the direction
with the flow field's answer when non-absent, then integrate the position by
`direction × currentSpeed × (deltaTime / 1000)`. -/
def movementStep (ff : ℚ × ℚ → Option (ℚ × ℚ)) (deltaTime : ℚ) (e : MEntity) : MEntity :=
  let dir := match ff e.pos with
    | some d => d
    | none => e.direction
  let deltaTimeInSeconds := deltaTime / 1000
  { e with
    direction := dir,
    pos := (e.pos.1 + dir.1 * e.currentSpeed * deltaTimeInSeconds,
            e.pos.2 + dir.2 * e.currentSpeed * deltaTimeInSeconds) }

/-- `MovementSystem.update` over the query snapshot. -/
def movementUpdate (ff : ℚ × ℚ → Option (ℚ × ℚ)) (deltaTime : ℚ)
    (entities : List MEntity) : List MEntity :=
  entities.map (movementStep ff deltaTime)

/-- C8: one Movement Stage update, for every entity with Position+Movement,
first overwrites the direction with the flow field's direction at the
entity's current position when that lookup is non-absent (keeping the old
direction when absent), and then increments the position by
direction × currentSpeed × (deltaTime in seconds). -/
theorem c8_movement_follows_flow (ff : ℚ × ℚ → Option (ℚ × ℚ)) (deltaTime : ℚ)
    (entities : List MEntity) (i : Nat) (hi : i < entities.length) :
    ∃ hlen : i < (movementUpdate ff deltaTime entities).length,
      let e := entities.get ⟨i, hi⟩
      let e2 := (movementUpdate ff deltaTime entities).get ⟨i, hlen⟩
      (∀ d, ff e.pos = some d → e2.direction = d) ∧
      (ff e.pos = none → e2.direction = e.direction) ∧
      e2.pos = (e.pos.1 + e2.direction.1 * e.currentSpeed * (deltaTime / 1000),
                e.pos.2 + e2.direction.2 * e.currentSpeed * (deltaTime / 1000)) ∧
      e2.id = e.id ∧ e2.currentSpeed = e.currentSpeed ∧ e2.baseSpeed = e.baseSpeed := by
  have hlen : i < (movementUpdate ff deltaTime entities).length := by
    simpa [movementUpdate] using hi
  refine ⟨hlen, ?_⟩
  have hget : (movementUpdate ff deltaTime entities).get ⟨i, hlen⟩ =
      movementStep ff deltaTime (entities.get ⟨i, hi⟩) := by
    simp [movementUpdate]
  rw [hget]
  refine ⟨?_, ?_, ?_, ?_, ?_, ?_⟩
  · intro d hd
    simp only [List.get_eq_getElem] at hd
    simp [movementStep, hd]
  · intro hd
    simp only [List.get_eq_getElem] at hd
    simp [movementStep, hd]
  · simp [movementStep]
  · simp [movementStep]
  · simp [movementStep]
  · simp [movementStep]

/-- Witness for C8: a single enemy at (1/2, 1/2), a flow field answering
east, speed 30, a 16 ms tick. -/
theorem c8_movement_follows_flow_witness :
    ∃ hlen : 0 < (movementUpdate (fun _ => some (1, 0)) 16
        [⟨"e".data, (1/2, 1/2), 30, 30, (0, 1)⟩]).length,
      let e := ([⟨"e".data, (1/2, 1/2), 30, 30, (0, 1)⟩] : List MEntity).get
        ⟨0, by norm_num⟩
      let e2 := (movementUpdate (fun _ => some (1, 0)) 16
        [⟨"e".data, (1/2, 1/2), 30, 30, (0, 1)⟩]).get ⟨0, hlen⟩
      (∀ d, (fun (_ : ℚ × ℚ) => some ((1 : ℚ), (0 : ℚ))) e.pos = some d → e2.direction = d) ∧
      ((fun (_ : ℚ × ℚ) => some ((1 : ℚ), (0 : ℚ))) e.pos = none → e2.direction = e.direction) ∧
      e2.pos = (e.pos.1 + e2.direction.1 * e.currentSpeed * (16 / 1000),
                e.pos.2 + e2.direction.2 * e.currentSpeed * (16 / 1000)) ∧
      e2.id = e.id ∧ e2.currentSpeed = e.currentSpeed ∧ e2.baseSpeed = e.baseSpeed :=
  c8_movement_follows_flow (fun _ => some (1, 0)) 16
    [⟨"e".data, (1/2, 1/2), 30, 30, (0, 1)⟩] 0 (by norm_num)

/-! ## Projectile system (src/systems/ProjectileSystem.ts)

Scalar values are `ℝ` here because the homing step divides the offset by
`Math.sqrt(dx² + dy²)`.  The JS loop iterates over the
Position+Projectile query snapshot but reads and mutates the live entity
objects; with unique ids this is the same as iterating over the snapshot's
id list and reading the current store state at each step, which is how
`projStep` is phrased.  Removals are collected in `entitiesToRemove` during
the scan and applied afterwards. -/

/-- The Projectile component: target id, speed, damage, remaining lifetime. -/
structure PComp where
  targetId : Str
  speed : ℝ
  damage : ℝ
  lifetime : ℝ

/-- An entity as the projectile system sees it: id, Position, optional
Health (current, maximum) and optional Projectile component. -/
structure PEntity where
  id : Str
  pos : ℝ × ℝ
  health : Option (ℝ × ℝ)
  proj : Option PComp

/-- The store as the projectile system reads it (insertion-ordered). -/
abbrev Store := List PEntity

/-- `entityManager.getEntity(id)`. -/
def findEnt (s : Store) (id : Str) : Option PEntity :=
  s.find? (fun e => e.id == id)

/-- Mutation of the live entity with the given id (JS object aliasing). -/
def setEnt (s : Store) (id : Str) (e2 : PEntity) : Store :=
  s.map (fun e => if e.id == id then e2 else e)

/-- `entityManager.removeEntity(id)` restricted to the store contents. -/
def removeEnt (s : Store) (id : Str) : Store :=
  s.filter (fun e => e.id != id)

/-- One iteration of the `ProjectileSystem.update` loop, processing the
projectile with id `pid`: decrement its lifetime; on expiry mark it for
removal; else resolve the target by id, marking the projectile for removal
when the target is absent; else on arrival (`distance < 5`) apply damage,
marking the target when its health drops to `≤ 0` and the projectile; else
home toward the target at `speed` for this tick. -/
noncomputable def projStep (deltaTime : ℝ) (acc : Store × List Str) (pid : Str) :
    Store × List Str :=
  match findEnt acc.1 pid with
  | none => acc
  | some p =>
    match p.proj with
    | none => acc
    | some pc =>
        let pc2 : PComp := { pc with lifetime := pc.lifetime - deltaTime }
        let work2 := setEnt acc.1 pid { p with proj := some pc2 }
        if pc2.lifetime ≤ 0 then (work2, acc.2 ++ [pid])
        else
          match findEnt work2 pc2.targetId with
          | none => (work2, acc.2 ++ [pid])
          | some tgt =>
              let dx := tgt.pos.1 - p.pos.1
              let dy := tgt.pos.2 - p.pos.2
              let distance := Real.sqrt (dx * dx + dy * dy)
              if distance < 5 then
                match tgt.health with
                | some hp =>
                    let hp2 := (hp.1 - pc2.damage, hp.2)
                    let work3 := setEnt work2 tgt.id { tgt with health := some hp2 }
                    let addT := if hp2.1 ≤ 0 then [tgt.id] else []
                    (work3, (acc.2 ++ addT) ++ [pid])
                | none => (work2, acc.2 ++ [pid])
              else
                let deltaTimeInSeconds := deltaTime / 1000
                let dirX := dx / distance
                let dirY := dy / distance
                let pos2 := (p.pos.1 + dirX * pc2.speed * deltaTimeInSeconds,
                             p.pos.2 + dirY * pc2.speed * deltaTimeInSeconds)
                (setEnt acc.1 pid { p with pos := pos2, proj := some pc2 }, acc.2)

/-- The scan phase: fold `projStep` over the snapshot of projectile ids,
collecting removals without applying them. -/
noncomputable def projScan (deltaTime : ℝ) (s : Store) : Store × List Str :=
  ((s.filter (fun e => e.proj.isSome)).map (fun e => e.id)).foldl (projStep deltaTime) (s, [])

/-- `ProjectileSystem.update`: scan, then apply the collected removals. -/
noncomputable def projectileUpdate (deltaTime : ℝ) (s : Store) : Store :=
  (projScan deltaTime s).2.foldl removeEnt (projScan deltaTime s).1

theorem findEnt_id (s : Store) (pid : Str) (p : PEntity) (h : findEnt s pid = some p) :
    p.id = pid := by
  have h2 := List.find?_some h
  exact eq_of_beq h2

theorem setEnt_ids (s : Store) (pid : Str) (e2 : PEntity) (hid : e2.id = pid) :
    (setEnt s pid e2).map (fun e => e.id) = s.map (fun e => e.id) := by
  unfold setEnt
  rw [List.map_map]
  apply List.map_congr_left
  intro e _
  simp only [Function.comp]
  by_cases h : e.id == pid
  · rw [if_pos h, hid]
    exact (eq_of_beq h).symm
  · rw [if_neg h]

theorem setEnt_setEnt_ids (s : Store) (pid tid : Str) (e1 e2 : PEntity)
    (h1 : e1.id = pid) (h2 : e2.id = tid) :
    (setEnt (setEnt s pid e1) tid e2).map (fun e => e.id) = s.map (fun e => e.id) :=
  (setEnt_ids _ _ _ h2).trans (setEnt_ids _ _ _ h1)

theorem projStep_ids (deltaTime : ℝ) (acc : Store × List Str) (pid : Str) :
    (projStep deltaTime acc pid).1.map (fun e => e.id) = acc.1.map (fun e => e.id) := by
  unfold projStep
  split
  · rfl
  case _ p hfind =>
    have hpid : p.id = pid := findEnt_id _ _ _ hfind
    split
    · rfl
    case _ pc hproj =>
      simp only []
      split
      · exact setEnt_ids _ _ _ hpid
      · split
        · exact setEnt_ids _ _ _ hpid
        case _ tgt htgt =>
          split
          · split
            · exact setEnt_setEnt_ids acc.1 pid tgt.id _ _ hpid rfl
            · exact setEnt_ids _ _ _ hpid
          · exact setEnt_ids _ _ _ hpid

theorem foldl_projStep_ids (deltaTime : ℝ) (pids : List Str) (acc : Store × List Str) :
    (pids.foldl (projStep deltaTime) acc).1.map (fun e => e.id) =
      acc.1.map (fun e => e.id) := by
  induction pids generalizing acc with
  | nil => rfl
  | cons pid rest ih =>
    rw [List.foldl_cons, ih, projStep_ids]

theorem removeEnt_ids (s : Store) (id : Str) :
    (removeEnt s id).map (fun e => e.id) =
      (s.map (fun e => e.id)).filter (fun i => i != id) := by
  unfold removeEnt
  induction s with
  | nil => rfl
  | cons e rest ih =>
    rw [List.filter_cons, List.map_cons, List.filter_cons]
    by_cases h : (e.id != id) = true
    · rw [if_pos h, if_pos h, List.map_cons, ih]
    · rw [if_neg h, if_neg h, ih]

theorem foldl_removeEnt_ids (rm : List Str) (s : Store) :
    (rm.foldl removeEnt s).map (fun e => e.id) =
      (s.map (fun e => e.id)).filter (fun i => !(rm.contains i)) := by
  induction rm generalizing s with
  | nil => simp
  | cons a rest ih =>
    rw [List.foldl_cons, ih, removeEnt_ids, List.filter_filter]
    apply List.filter_congr
    intro i _
    by_cases h : i = a
    · subst h; simp
    · simp [h, bne, Ne.symm h]

/-- C7: during a single `ProjectileSystem.update`, the scan over the
projectile snapshot never removes an entity from the store (the id list of
the store is untouched by the scan); removals are only recorded in
`entitiesToRemove` and applied after the scan completes, leaving exactly the
entities whose ids were not recorded. -/
theorem c7_removals_batched (deltaTime : ℝ) (s : Store) :
    (projScan deltaTime s).1.map (fun e => e.id) = s.map (fun e => e.id) ∧
    (projectileUpdate deltaTime s).map (fun e => e.id) =
      (s.map (fun e => e.id)).filter (fun i => !((projScan deltaTime s).2.contains i)) := by
  constructor
  · exact foldl_projStep_ids deltaTime _ (s, [])
  · unfold projectileUpdate
    rw [foldl_removeEnt_ids]
    rw [show (projScan deltaTime s).1.map (fun e => e.id) = s.map (fun e => e.id) from
      foldl_projStep_ids deltaTime _ (s, [])]

theorem findEnt_eq_none_iff (s : Store) (tid : Str) :
    findEnt s tid = none ↔ ∀ e ∈ s, e.id ≠ tid := by
  unfold findEnt
  rw [List.find?_eq_none]
  constructor
  · intro h e he heq
    exact h e he (by simp [heq])
  · intro h e he
    simp only [beq_iff_eq]
    exact h e he

theorem findEnt_mem_nodup (s : Store) (p : PEntity) (hp : p ∈ s)
    (hnd : (s.map (fun e => e.id)).Nodup) : findEnt s p.id = some p := by
  induction s with
  | nil => cases hp
  | cons e rest ih =>
    rw [List.map_cons, List.nodup_cons] at hnd
    rcases List.mem_cons.mp hp with rfl | hp2
    · unfold findEnt
      rw [List.find?_cons_of_pos _ (by simp)]
    · have hne : e.id ≠ p.id := by
        intro heq
        exact hnd.1 (heq ▸ List.mem_map_of_mem (fun e => e.id) hp2)
      unfold findEnt
      rw [List.find?_cons_of_neg _ (by simp [hne])]
      exact ih hp2 hnd.2

theorem filter_proj_singleton (s : Store) (p : PEntity)
    (hp : p ∈ s) (hq : p.proj.isSome) (honly : ∀ e ∈ s, e.proj.isSome → e = p)
    (hnd : (s.map (fun e => e.id)).Nodup) :
    s.filter (fun e => e.proj.isSome) = [p] := by
  induction s with
  | nil => cases hp
  | cons e rest ih =>
    rw [List.map_cons, List.nodup_cons] at hnd
    rcases List.mem_cons.mp hp with rfl | hp2
    · rw [List.filter_cons, if_pos hq]
      have hrest : rest.filter (fun e2 => e2.proj.isSome) = [] := by
        rw [List.filter_eq_nil_iff]
        intro x hx hqx
        have hxp : x = p := honly x (List.mem_cons_of_mem _ hx) hqx
        exact hnd.1 (hxp ▸ List.mem_map_of_mem (fun e2 => e2.id) hx)
      rw [hrest]
    · have hqe : ¬ (e.proj.isSome = true) := by
        intro hqe
        have hep : e = p := honly e (List.mem_cons_self e rest) hqe
        exact hnd.1 (by
          subst hep
          exact List.mem_map_of_mem (fun e2 => e2.id) hp2)
      rw [List.filter_cons, if_neg hqe]
      exact ih hp2 (fun x hx hqx => honly x (List.mem_cons_of_mem e hx) hqx) hnd.2

theorem findEnt_setEnt_none (s : Store) (tid pid : Str) (e2 : PEntity)
    (h : findEnt s tid = none) (hid : e2.id = pid) (hne : pid ≠ tid) :
    findEnt (setEnt s pid e2) tid = none := by
  rw [findEnt_eq_none_iff] at h ⊢
  intro x hx
  obtain ⟨y, hy, rfl⟩ := List.mem_map.mp hx
  by_cases hcase : (y.id == pid) = true
  · rw [if_pos hcase, hid]
    exact hne
  · rw [if_neg hcase]
    exact h y hy

theorem filter_ne_setEnt (s : Store) (pid : Str) (e2 : PEntity) (hid : e2.id = pid) :
    (setEnt s pid e2).filter (fun e => e.id != pid) = s.filter (fun e => e.id != pid) := by
  unfold setEnt
  induction s with
  | nil => rfl
  | cons e rest ih =>
    rw [List.map_cons, List.filter_cons, List.filter_cons]
    by_cases h : (e.id == pid) = true
    · rw [if_pos h]
      have h1 : (e2.id != pid) = false := by simp [hid]
      have h2 : (e.id != pid) = false := by simp [eq_of_beq h]
      rw [h1, h2]
      simp only [Bool.false_eq_true, if_false]
      exact ih
    · rw [if_neg h]
      have hne2 : e.id ≠ pid := by simpa using h
      have h1 : (e.id != pid) = true := by simp [hne2]
      rw [h1]
      simp only [if_true]
      rw [ih]

/-- C5 (amended): a projectile whose bound target is absent from the store —
the state left by a previous update that removed the target — is resolved by
silently discarding the projectile: the update removes it, applies no
damage, and leaves every other entity untouched.  (Within the very update
whose scan killed the target the removal is still pending, so a second
projectile resolving the same target in that scan still finds it — see the
counterexample.) -/
theorem c5_stale_target_discarded (deltaTime : ℝ) (s : Store) (p : PEntity) (pc : PComp)
    (hp : p ∈ s) (hproj : p.proj = some pc)
    (honly : ∀ e ∈ s, e.proj.isSome → e = p)
    (hnd : (s.map (fun e => e.id)).Nodup)
    (htgt : findEnt s pc.targetId = none)
    (hlife : 0 < pc.lifetime - deltaTime) :
    projectileUpdate deltaTime s = s.filter (fun e => e.id != p.id) ∧
    ∀ e ∈ s, e.id ≠ p.id → e ∈ projectileUpdate deltaTime s := by
  have hsnap : s.filter (fun e => e.proj.isSome) = [p] :=
    filter_proj_singleton s p hp (by rw [hproj]; rfl) honly hnd
  have hfind : findEnt s p.id = some p := findEnt_mem_nodup s p hp hnd
  have hne : p.id ≠ pc.targetId := (findEnt_eq_none_iff s pc.targetId).mp htgt p hp
  have hmain : projectileUpdate deltaTime s = s.filter (fun e => e.id != p.id) := by
    unfold projectileUpdate projScan
    rw [hsnap]
    simp only [List.map_cons, List.map_nil, List.foldl_cons, List.foldl_nil]
    have hstep : projStep deltaTime (s, []) p.id =
        (setEnt s p.id { p with proj := some { pc with lifetime := pc.lifetime - deltaTime } },
          [p.id]) := by
      unfold projStep
      simp only [hfind, hproj]
      rw [if_neg (by simpa using not_le.mpr hlife)]
      have hrec : findEnt (setEnt s p.id
          { p with proj := some { pc with lifetime := pc.lifetime - deltaTime } })
          pc.targetId = none :=
        findEnt_setEnt_none s pc.targetId p.id _ htgt rfl hne
      rw [hrec]
      simp
    rw [hstep]
    simp only [List.foldl_cons, List.foldl_nil]
    unfold removeEnt
    exact filter_ne_setEnt s p.id _ rfl
  refine ⟨hmain, ?_⟩
  intro e he hene
  rw [hmain]
  rw [List.mem_filter]
  exact ⟨he, by simp [hene]⟩

/-- Witness for the amended C5: a single projectile bound to an id absent
from the store is discarded by the update, leaving the rest (nothing here)
unchanged. -/
theorem c5_stale_target_discarded_witness :
    projectileUpdate 16 [⟨"P".data, (0, 0), none, some ⟨"g".data, 200, 50, 3000⟩⟩] =
      ([⟨"P".data, (0, 0), none, some ⟨"g".data, 200, 50, 3000⟩⟩] : Store).filter
        (fun e => e.id != "P".data) ∧
    ∀ e ∈ ([⟨"P".data, (0, 0), none, some ⟨"g".data, 200, 50, 3000⟩⟩] : Store),
      e.id ≠ "P".data →
      e ∈ projectileUpdate 16 [⟨"P".data, (0, 0), none, some ⟨"g".data, 200, 50, 3000⟩⟩] :=
  c5_stale_target_discarded 16 _ ⟨"P".data, (0, 0), none, some ⟨"g".data, 200, 50, 3000⟩⟩
    ⟨"g".data, 200, 50, 3000⟩ (List.mem_singleton.mpr rfl) rfl
    (fun e he _ => List.mem_singleton.mp he) (by simp) rfl (by norm_num)

theorem projStep_hit_kill (deltaTime : ℝ) (acc : Store × List Str) (pid : Str)
    (p : PEntity) (pc : PComp) (tgt : PEntity) (hp : ℝ × ℝ)
    (hfind : findEnt acc.1 pid = some p) (hproj : p.proj = some pc)
    (hlife : 0 < pc.lifetime - deltaTime)
    (htgt : findEnt (setEnt acc.1 pid
      { p with proj := some { pc with lifetime := pc.lifetime - deltaTime } })
      pc.targetId = some tgt)
    (hdist : Real.sqrt ((tgt.pos.1 - p.pos.1) * (tgt.pos.1 - p.pos.1) +
      (tgt.pos.2 - p.pos.2) * (tgt.pos.2 - p.pos.2)) < 5)
    (hhp : tgt.health = some hp)
    (hkill : hp.1 - pc.damage ≤ 0) :
    projStep deltaTime acc pid =
      (setEnt (setEnt acc.1 pid
          { p with proj := some { pc with lifetime := pc.lifetime - deltaTime } })
          tgt.id { tgt with health := some (hp.1 - pc.damage, hp.2) },
        (acc.2 ++ [tgt.id]) ++ [pid]) := by
  unfold projStep
  simp only [hfind, hproj]
  rw [if_neg (by simpa using not_le.mpr hlife)]
  rw [htgt]
  simp only [hhp]
  rw [if_pos hdist, if_pos hkill]

theorem projStep_move_removals (deltaTime : ℝ) (acc : Store × List Str) (pid : Str)
    (p : PEntity) (pc : PComp) (tgt : PEntity)
    (hfind : findEnt acc.1 pid = some p) (hproj : p.proj = some pc)
    (hlife : 0 < pc.lifetime - deltaTime)
    (htgt : findEnt (setEnt acc.1 pid
      { p with proj := some { pc with lifetime := pc.lifetime - deltaTime } })
      pc.targetId = some tgt)
    (hdist : ¬ (Real.sqrt ((tgt.pos.1 - p.pos.1) * (tgt.pos.1 - p.pos.1) +
      (tgt.pos.2 - p.pos.2) * (tgt.pos.2 - p.pos.2)) < 5)) :
    (projStep deltaTime acc pid).2 = acc.2 := by
  unfold projStep
  simp only [hfind, hproj]
  rw [if_neg (by simpa using not_le.mpr hlife)]
  rw [htgt]
  simp only []
  rw [if_neg hdist]

/-- The doomed target: health 50/50, no Projectile component. -/
def cexT : PEntity := ⟨"T".data, (0, 0), some (50, 50), none⟩

/-- First projectile: 1 unit from the target (inside the arrival threshold 5),
damage 50 — enough to kill. -/
def cexP1 : PEntity := ⟨"P1".data, (1, 0), none, some ⟨"T".data, 200, 50, 100⟩⟩

/-- Second projectile bound to the same target, 10 units away (outside the
arrival threshold). -/
def cexP2 : PEntity := ⟨"P2".data, (10, 0), none, some ⟨"T".data, 200, 50, 3000⟩⟩

def cexStore : Store := [cexT, cexP1, cexP2]

def cexP1h : PEntity := ⟨"P1".data, (1, 0), none, some ⟨"T".data, 200, 50, 100 - 16⟩⟩

def cexTh : PEntity := ⟨"T".data, (0, 0), some (50 - 50, 50), none⟩

def cexW3 : Store := [cexTh, cexP1h, cexP2]

/-- C5 counterexample: two projectiles bound to the same lone target; the
first one resolves in this update and drops the target's health to 0, but
because removals are batched to the end of the update, the second
projectile's resolution in the same scan still finds the target present:
instead of being removed as the claim requires, it homes toward the dead
target and survives the update (the final store holds exactly the moved
second projectile). -/
theorem c5_counterexample :
    (projectileUpdate 16 cexStore).map (fun e => e.id) = ["P2".data] := by
  have hdist1 : Real.sqrt ((cexT.pos.1 - cexP1.pos.1) * (cexT.pos.1 - cexP1.pos.1) +
      (cexT.pos.2 - cexP1.pos.2) * (cexT.pos.2 - cexP1.pos.2)) < 5 := by
    have h1 : ((cexT.pos.1 - cexP1.pos.1) * (cexT.pos.1 - cexP1.pos.1) +
        (cexT.pos.2 - cexP1.pos.2) * (cexT.pos.2 - cexP1.pos.2) : ℝ) = 1 := by
      simp only [cexT, cexP1]
      norm_num
    rw [h1, Real.sqrt_one]
    norm_num
  have hdist2 : ¬ (Real.sqrt ((cexTh.pos.1 - cexP2.pos.1) * (cexTh.pos.1 - cexP2.pos.1) +
      (cexTh.pos.2 - cexP2.pos.2) * (cexTh.pos.2 - cexP2.pos.2)) < 5) := by
    have h1 : ((cexTh.pos.1 - cexP2.pos.1) * (cexTh.pos.1 - cexP2.pos.1) +
        (cexTh.pos.2 - cexP2.pos.2) * (cexTh.pos.2 - cexP2.pos.2) : ℝ) = 100 := by
      simp only [cexTh, cexP2]
      norm_num
    have h2 : Real.sqrt 100 = 10 := by
      rw [show (100 : ℝ) = 10 ^ 2 by norm_num]
      exact Real.sqrt_sq (by norm_num)
    rw [h1, h2]
    norm_num
  have hstep1 : projStep 16 (cexStore, []) cexP1.id = (cexW3, ["T".data, "P1".data]) := by
    have h := projStep_hit_kill 16 (cexStore, []) cexP1.id cexP1 ⟨"T".data, 200, 50, 100⟩
      cexT (50, 50) rfl rfl (by norm_num) rfl hdist1 rfl (by norm_num)
    rw [h]
    rfl
  have hstep2 : (projStep 16 (cexW3, ["T".data, "P1".data]) cexP2.id).2 =
      ["T".data, "P1".data] :=
    projStep_move_removals 16 (cexW3, ["T".data, "P1".data]) cexP2.id cexP2
      ⟨"T".data, 200, 50, 3000⟩ cexTh rfl rfl (by norm_num) rfl hdist2
  have hrm : (projScan 16 cexStore).2 = ["T".data, "P1".data] := by
    unfold projScan
    rw [show cexStore.filter (fun e => e.proj.isSome) = [cexP1, cexP2] from rfl]
    simp only [List.map_cons, List.map_nil, List.foldl_cons, List.foldl_nil]
    rw [hstep1]
    exact hstep2
  unfold projectileUpdate
  rw [foldl_removeEnt_ids]
  rw [show (projScan 16 cexStore).1.map (fun e => e.id) = cexStore.map (fun e => e.id) from
    foldl_projStep_ids 16 _ (cexStore, [])]
  rw [hrm]
  rfl

/-! ## Distance propagation (src/pathfinding/FlowField.ts, generateDistanceMap)

The dense `width`×`height` array `distanceMap` (initialised to `Infinity`)
is modelled as a total function `Nat → Nat → ℕ∞` with pointwise update —
every source access is bounds-checked before indexing.  The worklist loop
`while (queue.length > 0)` is modelled with explicit fuel; the fuel bound
`2·(w·h)² + 2` is proved sufficient (`bfs_reaches_final`), so the fuel-out
branch is never taken for the chosen fuel. -/

/-- The dense distance array as a function; `distanceMap[y][x]` is `dist x y`
and `Infinity` is `⊤`. -/
abbrev DistMap := Nat → Nat → ℕ∞

def updateDM (d : DistMap) (x y : Nat) (v : ℕ∞) : DistMap :=
  fun a b => if a = x ∧ b = y then v else d a b

/-- A queue element `{x, y, distance}`. -/
structure QEntry where
  x : Nat
  y : Nat
  d : Nat
deriving DecidableEq, Repr

/-- The 4-connected neighbour offsets, in source order W, E, N, S. -/
def offsets4 : List (Int × Int) := [(-1, 0), (1, 0), (0, -1), (0, 1)]

/-- Relaxation of one neighbour of the dequeued entry `cur`: bounds check,
walkability check, and strict improvement check, recording the improved
distance and enqueueing the neighbour. -/
def relaxNeighbor (tm : TileMap) (cur : QEntry) (acc : DistMap × List QEntry)
    (off : Int × Int) : DistMap × List QEntry :=
  let nx : Int := (cur.x : Int) + off.1
  let ny : Int := (cur.y : Int) + off.2
  if 0 ≤ nx ∧ nx < (tm.width : Int) ∧ 0 ≤ ny ∧ ny < (tm.height : Int) then
    if tm.isWalkable nx ny then
      if ((cur.d + 1 : Nat) : ℕ∞) < acc.1 nx.toNat ny.toNat then
        (updateDM acc.1 nx.toNat ny.toNat ((cur.d + 1 : Nat) : ℕ∞),
          acc.2 ++ [⟨nx.toNat, ny.toNat, cur.d + 1⟩])
      else acc
    else acc
  else acc

/-- Processing of one dequeued entry: relax its four neighbours in order. -/
def processEntry (tm : TileMap) (dist : DistMap) (cur : QEntry) : DistMap × List QEntry :=
  offsets4.foldl (relaxNeighbor tm cur) (dist, [])

/-- The worklist loop, with fuel.  `queue.shift()` pops the front; improved
neighbours are pushed at the back. -/
def bfs (tm : TileMap) : Nat → List QEntry → DistMap → DistMap
  | 0, _, dist => dist
  | _ + 1, [], dist => dist
  | fuel + 1, cur :: rest, dist =>
      let pr := processEntry tm dist cur
      bfs tm fuel (rest ++ pr.2) pr.1

/-- `generateDistanceMap`: all cells `Infinity`, the goal cell `0`, then the
worklist sweep (the fuel `2·(w·h)² + 2` is sufficient: see
`bfs_reaches_final`). -/
def generateDistanceMap (tm : TileMap) (gx gy : Nat) : DistMap :=
  let n := tm.width * tm.height
  bfs tm (2 * n * n + 2) [⟨gx, gy, 0⟩] (updateDM (fun _ _ => ⊤) gx gy ((0 : Nat) : ℕ∞))

/-- In-bounds predicate for cell coordinates. -/
def InB (tm : TileMap) (c : Nat × Nat) : Prop := c.1 < tm.width ∧ c.2 < tm.height

instance (tm : TileMap) : DecidablePred (InB tm) := fun c => by
  unfold InB; infer_instance

/-- 4-adjacency, in terms of the source offset list. -/
def Adj (c n : Nat × Nat) : Prop :=
  ∃ off ∈ offsets4, (n.1 : Int) = (c.1 : Int) + off.1 ∧ (n.2 : Int) = (c.2 : Int) + off.2

/-- A path from the goal: consecutive 4-adjacent steps into in-bounds
walkable cells.  `Path tm g c d` means `c` is reachable from `g` in exactly
`d` such steps. -/
inductive Path (tm : TileMap) (g : Nat × Nat) : Nat × Nat → Nat → Prop where
  | base : Path tm g g 0
  | step {c n : Nat × Nat} {d : Nat} : Path tm g c d → Adj c n → InB tm n →
      tm.isWalkable n.1 n.2 = true → Path tm g n (d + 1)

/-- A duplicate-free path whose cells all carry distance bounds: the
invariant-carrying strengthening of `Path` used in the worklist proof. -/
inductive Chain (tm : TileMap) (g : Nat × Nat) (dist : DistMap) :
    Nat × Nat → Nat → List (Nat × Nat) → Prop where
  | base : dist g.1 g.2 ≤ ((0 : Nat) : ℕ∞) → Chain tm g dist g 0 [g]
  | step {c n : Nat × Nat} {d : Nat} {l : List (Nat × Nat)} :
      Chain tm g dist c d l → Adj c n → InB tm n →
      tm.isWalkable n.1 n.2 = true → n ∉ l →
      dist n.1 n.2 ≤ ((d + 1 : Nat) : ℕ∞) → Chain tm g dist n (d + 1) (l ++ [n])

theorem Chain.length {tm : TileMap} {g : Nat × Nat} {dist : DistMap}
    {c : Nat × Nat} {d : Nat} {l : List (Nat × Nat)}
    (h : Chain tm g dist c d l) : l.length = d + 1 := by
  induction h with
  | base _ => rfl
  | step _ _ _ _ _ _ ih => simp [ih]

theorem Chain.nodup {tm : TileMap} {g : Nat × Nat} {dist : DistMap}
    {c : Nat × Nat} {d : Nat} {l : List (Nat × Nat)}
    (h : Chain tm g dist c d l) : l.Nodup := by
  induction h with
  | base _ => simp
  | step _ _ _ _ hnm _ ih =>
    rw [List.nodup_append]
    refine ⟨ih, List.nodup_singleton _, ?_⟩
    intro a ha hb
    rw [List.mem_singleton] at hb
    subst hb
    exact hnm ha

theorem Chain.mem_dist {tm : TileMap} {g : Nat × Nat} {dist : DistMap}
    {c : Nat × Nat} {d : Nat} {l : List (Nat × Nat)}
    (h : Chain tm g dist c d l) : ∀ p ∈ l, dist p.1 p.2 ≤ (d : ℕ∞) := by
  induction h with
  | base hg =>
    intro p hp
    rw [List.mem_singleton] at hp
    subst hp
    exact hg
  | step _ _ _ _ _ hdn ih =>
    intro p hp
    rcases List.mem_append.mp hp with hp | hp
    · calc dist p.1 p.2 ≤ _ := ih p hp
      _ ≤ _ := by exact_mod_cast WithTop.coe_le_coe.mpr (Nat.le_succ _)
    · rw [List.mem_singleton] at hp
      subst hp
      exact hdn

theorem Chain.mem_inb {tm : TileMap} {g : Nat × Nat} {dist : DistMap}
    {c : Nat × Nat} {d : Nat} {l : List (Nat × Nat)}
    (hg : InB tm g) (h : Chain tm g dist c d l) : ∀ p ∈ l, InB tm p := by
  induction h with
  | base _ =>
    intro p hp
    rw [List.mem_singleton] at hp
    exact hp ▸ hg
  | step _ _ hin _ _ _ ih =>
    intro p hp
    rcases List.mem_append.mp hp with hp | hp
    · exact ih p hp
    · rw [List.mem_singleton] at hp
      exact hp ▸ hin

theorem Chain.mono {tm : TileMap} {g : Nat × Nat} {dist dist2 : DistMap}
    {c : Nat × Nat} {d : Nat} {l : List (Nat × Nat)}
    (hle : ∀ x y, dist2 x y ≤ dist x y) (h : Chain tm g dist c d l) :
    Chain tm g dist2 c d l := by
  induction h with
  | base hg => exact Chain.base (le_trans (hle g.1 g.2) hg)
  | step _ hadj hin hwalk hnm hdn ih =>
    exact Chain.step ih hadj hin hwalk hnm (le_trans (hle _ _) hdn)

theorem Chain.to_path {tm : TileMap} {g : Nat × Nat} {dist : DistMap}
    {c : Nat × Nat} {d : Nat} {l : List (Nat × Nat)}
    (h : Chain tm g dist c d l) : Path tm g c d := by
  induction h with
  | base _ => exact Path.base
  | step _ hadj hin hwalk _ _ ih => exact Path.step ih hadj hin hwalk

theorem Chain.endpoint {tm : TileMap} {g : Nat × Nat} {dist : DistMap}
    {c : Nat × Nat} {d : Nat} {l : List (Nat × Nat)}
    (h : Chain tm g dist c d l) : c = g ∨ tm.isWalkable c.1 c.2 = true := by
  cases h with
  | base _ => exact Or.inl rfl
  | step _ _ _ hwalk _ _ => exact Or.inr hwalk

theorem Chain.endpoint_mem {tm : TileMap} {g : Nat × Nat} {dist : DistMap}
    {c : Nat × Nat} {d : Nat} {l : List (Nat × Nat)}
    (h : Chain tm g dist c d l) : c ∈ l := by
  cases h with
  | base _ => exact List.mem_singleton.mpr rfl
  | step _ _ _ _ _ _ => exact List.mem_append_right _ (List.mem_singleton.mpr rfl)

theorem Chain.d_lt {tm : TileMap} {g : Nat × Nat} {dist : DistMap}
    {c : Nat × Nat} {d : Nat} {l : List (Nat × Nat)}
    (hg : InB tm g) (h : Chain tm g dist c d l) : d < tm.width * tm.height := by
  have hlen := h.length
  have hnd := h.nodup
  have hinb := Chain.mem_inb hg h
  have hsub : l.toFinset ⊆ Finset.range tm.width ×ˢ Finset.range tm.height := by
    intro p hp
    have hin := hinb p (List.mem_toFinset.mp hp)
    rw [Finset.mem_product, Finset.mem_range, Finset.mem_range]
    exact hin
  have hcard : l.length ≤ tm.width * tm.height := by
    calc l.length = l.toFinset.card := (List.toFinset_card_of_nodup hnd).symm
    _ ≤ (Finset.range tm.width ×ˢ Finset.range tm.height).card := Finset.card_le_card hsub
    _ = tm.width * tm.height := by rw [Finset.card_product, Finset.card_range, Finset.card_range]
  omega

/-! ### Termination measure for the worklist loop -/

/-- Capacity of a cell value for the termination measure: a cell holding `v`
can be strictly improved at most `capN N v` more times (values are bounded
by `N` thanks to the chain bound). -/
def capN (N : Nat) (v : ℕ∞) : Nat := min (WithTop.untop' N v) N

theorem capN_le (N : Nat) (v : ℕ∞) : capN N v ≤ N := min_le_right _ _

theorem capN_top (N : Nat) : capN N ⊤ = N := by
  unfold capN
  rw [WithTop.untop'_top, min_self]

theorem capN_coe (N k : Nat) : capN N ((k : Nat) : ℕ∞) = min k N := rfl

theorem capN_lt_of_lt (N k : Nat) (v : ℕ∞) (hk : k < N) (hlt : ((k : Nat) : ℕ∞) < v) :
    capN N ((k : Nat) : ℕ∞) < capN N v := by
  cases v with
  | top =>
    rw [capN_coe, capN_top]
    omega
  | coe o =>
    have ho : k < o := by exact_mod_cast hlt
    rw [capN_coe, capN_coe]
    omega

/-- The measure potential: sum of cell capacities over the grid. -/
def Phi (tm : TileMap) (dist : DistMap) : Nat :=
  ∑ y ∈ Finset.range tm.height, ∑ x ∈ Finset.range tm.width,
    capN (tm.width * tm.height) (dist x y)

theorem Phi_le (tm : TileMap) (dist : DistMap) :
    Phi tm dist ≤ (tm.width * tm.height) * (tm.width * tm.height) := by
  unfold Phi
  calc ∑ y ∈ Finset.range tm.height, ∑ x ∈ Finset.range tm.width,
        capN (tm.width * tm.height) (dist x y)
      ≤ ∑ _y ∈ Finset.range tm.height, tm.width * (tm.width * tm.height) := by
        apply Finset.sum_le_sum
        intro y _
        calc ∑ x ∈ Finset.range tm.width, capN (tm.width * tm.height) (dist x y)
            ≤ (Finset.range tm.width).card • (tm.width * tm.height) :=
              Finset.sum_le_card_nsmul _ _ _ (fun x _ => capN_le _ _)
        _ = tm.width * (tm.width * tm.height) := by
              rw [Finset.card_range, smul_eq_mul]
  _ = tm.height * (tm.width * (tm.width * tm.height)) := by
        rw [Finset.sum_const, Finset.card_range, smul_eq_mul]
  _ = (tm.width * tm.height) * (tm.width * tm.height) := by ring

theorem Phi_update_lt (tm : TileMap) (dist : DistMap) (nx ny : Nat)
    (hin : nx < tm.width ∧ ny < tm.height) (v : ℕ∞)
    (hcap : capN (tm.width * tm.height) v < capN (tm.width * tm.height) (dist nx ny)) :
    Phi tm (updateDM dist nx ny v) < Phi tm dist := by
  unfold Phi
  have hy : ny ∈ Finset.range tm.height := Finset.mem_range.mpr hin.2
  have hx : nx ∈ Finset.range tm.width := Finset.mem_range.mpr hin.1
  rw [← Finset.sum_erase_add _ _ hy, ← Finset.sum_erase_add _ _ hy]
  have houter : ∑ y ∈ (Finset.range tm.height).erase ny,
      ∑ x ∈ Finset.range tm.width, capN (tm.width * tm.height) (updateDM dist nx ny v x y) =
      ∑ y ∈ (Finset.range tm.height).erase ny,
      ∑ x ∈ Finset.range tm.width, capN (tm.width * tm.height) (dist x y) := by
    apply Finset.sum_congr rfl
    intro y hy2
    have hyne : y ≠ ny := (Finset.mem_erase.mp hy2).1
    apply Finset.sum_congr rfl
    intro x _
    unfold updateDM
    rw [if_neg (fun hc => hyne hc.2)]
  rw [houter]
  apply Nat.add_lt_add_left
  rw [← Finset.sum_erase_add _ _ hx, ← Finset.sum_erase_add _ _ hx]
  have hinner : ∑ x ∈ (Finset.range tm.width).erase nx,
      capN (tm.width * tm.height) (updateDM dist nx ny v x ny) =
      ∑ x ∈ (Finset.range tm.width).erase nx,
      capN (tm.width * tm.height) (dist x ny) := by
    apply Finset.sum_congr rfl
    intro x hx2
    have hxne : x ≠ nx := (Finset.mem_erase.mp hx2).1
    unfold updateDM
    rw [if_neg (fun hc => hxne hc.1)]
  rw [hinner]
  apply Nat.add_lt_add_left
  unfold updateDM
  rw [if_pos ⟨rfl, rfl⟩]
  exact hcap

/-- The invariant between iterations of the worklist loop. -/
structure BfsInv (tm : TileMap) (gx gy : Nat) (q : List QEntry) (dist : DistMap) : Prop where
  goal0 : dist gx gy = ((0 : Nat) : ℕ∞)
  sound : ∀ x y (n : Nat), dist x y = (n : ℕ∞) →
    ∃ l, Chain tm (gx, gy) dist (x, y) n l
  qsound : ∀ e ∈ q, ∃ l, Chain tm (gx, gy) dist (e.x, e.y) e.d l
  frontier : ∀ x y (n : Nat), dist x y = (n : ℕ∞) →
    (∀ c : Nat × Nat, Adj (x, y) c → InB tm c →
      tm.isWalkable c.1 c.2 = true → dist c.1 c.2 ≤ ((n + 1 : Nat) : ℕ∞)) ∨
    (∃ e ∈ q, e.x = x ∧ e.y = y ∧ e.d ≤ n)

/-- The invariant within the neighbour fold of one dequeued entry `cur`:
`dist` is the map at dequeue time, `offs` the offsets still to process,
`dist2`/`es` the accumulator. -/
structure MidInv (tm : TileMap) (gx gy : Nat) (dist : DistMap) (rest : List QEntry)
    (cur : QEntry) (offs : List (Int × Int)) (dist2 : DistMap) (es : List QEntry) : Prop where
  mono : ∀ x y, dist2 x y ≤ dist x y
  goal0 : dist2 gx gy = ((0 : Nat) : ℕ∞)
  curChain : ∃ l, Chain tm (gx, gy) dist2 (cur.x, cur.y) cur.d l
  sound : ∀ x y (n : Nat), dist2 x y = (n : ℕ∞) →
    ∃ l, Chain tm (gx, gy) dist2 (x, y) n l
  esSound : ∀ e ∈ es, (∃ l, Chain tm (gx, gy) dist2 (e.x, e.y) e.d l) ∧
    dist2 e.x e.y ≤ ((e.d : Nat) : ℕ∞)
  restSound : ∀ e ∈ rest, ∃ l, Chain tm (gx, gy) dist2 (e.x, e.y) e.d l
  frontier : ∀ x y (n : Nat), dist2 x y = (n : ℕ∞) →
    (∀ c : Nat × Nat, Adj (x, y) c → InB tm c →
      tm.isWalkable c.1 c.2 = true → dist2 c.1 c.2 ≤ ((n + 1 : Nat) : ℕ∞)) ∨
    (∃ e ∈ rest, e.x = x ∧ e.y = y ∧ e.d ≤ n) ∨
    (∃ e ∈ es, e.x = x ∧ e.y = y ∧ e.d ≤ n) ∨
    (x = cur.x ∧ y = cur.y ∧ cur.d ≤ n ∧
      ∀ off ∈ offsets4, off ∉ offs →
        ∀ c : Nat × Nat, (c.1 : Int) = (cur.x : Int) + off.1 →
          (c.2 : Int) = (cur.y : Int) + off.2 → InB tm c →
          tm.isWalkable c.1 c.2 = true →
          dist2 c.1 c.2 ≤ ((cur.d + 1 : Nat) : ℕ∞))
  measure : es.length + 2 * Phi tm dist2 ≤ 2 * Phi tm dist

theorem midInv_shrink {tm : TileMap} {gx gy : Nat} {dist : DistMap} {rest : List QEntry}
    {cur : QEntry} {off : Int × Int} {offs : List (Int × Int)} {dist2 : DistMap}
    {es : List QEntry}
    (hmid : MidInv tm gx gy dist rest cur (off :: offs) dist2 es)
    (hobl : ∀ c : Nat × Nat, (c.1 : Int) = (cur.x : Int) + off.1 →
      (c.2 : Int) = (cur.y : Int) + off.2 → InB tm c →
      tm.isWalkable c.1 c.2 = true → dist2 c.1 c.2 ≤ ((cur.d + 1 : Nat) : ℕ∞)) :
    MidInv tm gx gy dist rest cur offs dist2 es where
  mono := hmid.mono
  goal0 := hmid.goal0
  curChain := hmid.curChain
  sound := hmid.sound
  esSound := hmid.esSound
  restSound := hmid.restSound
  frontier := by
    intro x y n hn
    rcases hmid.frontier x y n hn with h1 | h2 | h3 | ⟨hx, hy, hd, hobls⟩
    · exact Or.inl h1
    · exact Or.inr (Or.inl h2)
    · exact Or.inr (Or.inr (Or.inl h3))
    · refine Or.inr (Or.inr (Or.inr ⟨hx, hy, hd, ?_⟩))
      intro off2 hoff2 hnotin c hc1 hc2 hcin hcw
      by_cases heq : off2 = off
      · subst heq
        exact hobl c hc1 hc2 hcin hcw
      · exact hobls off2 hoff2 (by
          intro hmem
          rcases List.mem_cons.mp hmem with h | h
          · exact heq h
          · exact hnotin h) c hc1 hc2 hcin hcw
  measure := hmid.measure

theorem midInv_relax {tm : TileMap} {gx gy : Nat} (hg : InB tm (gx, gy))
    {dist : DistMap} {rest : List QEntry} {cur : QEntry} {off : Int × Int}
    {offs : List (Int × Int)} {dist2 : DistMap} {es : List QEntry}
    (hoff : off ∈ offsets4)
    (hmid : MidInv tm gx gy dist rest cur (off :: offs) dist2 es) :
    MidInv tm gx gy dist rest cur offs
      (relaxNeighbor tm cur (dist2, es) off).1 (relaxNeighbor tm cur (dist2, es) off).2 := by
  unfold relaxNeighbor
  by_cases hb : 0 ≤ (cur.x : Int) + off.1 ∧ (cur.x : Int) + off.1 < (tm.width : Int) ∧
      0 ≤ (cur.y : Int) + off.2 ∧ (cur.y : Int) + off.2 < (tm.height : Int)
  · rw [if_pos hb]
    by_cases hw : tm.isWalkable ((cur.x : Int) + off.1) ((cur.y : Int) + off.2) = true
    · rw [if_pos hw]
      by_cases hlt : ((cur.d + 1 : Nat) : ℕ∞) <
          dist2 ((cur.x : Int) + off.1).toNat ((cur.y : Int) + off.2).toNat
      · rw [if_pos hlt]
        dsimp only
        -- the relaxation fires
        set nxt := ((cur.x : Int) + off.1).toNat with hnxt
        set nyt := ((cur.y : Int) + off.2).toNat with hnyt
        have hnx : (nxt : Int) = (cur.x : Int) + off.1 := Int.toNat_of_nonneg hb.1
        have hny : (nyt : Int) = (cur.y : Int) + off.2 := Int.toNat_of_nonneg hb.2.2.1
        have hinb : InB tm (nxt, nyt) := by
          constructor <;> [skip; skip] <;> omega
        have hadj : Adj (cur.x, cur.y) (nxt, nyt) := ⟨off, hoff, hnx, hny⟩
        have hwalk2 : tm.isWalkable ((nxt : Nat) : Int) ((nyt : Nat) : Int) = true := by
          rw [hnx, hny]; exact hw
        have hmono2 : ∀ x y,
            updateDM dist2 nxt nyt ((cur.d + 1 : Nat) : ℕ∞) x y ≤ dist2 x y := by
          intro x y
          unfold updateDM
          split
          case isTrue h => rw [h.1, h.2]; exact le_of_lt hlt
          case isFalse h => exact le_refl _
        obtain ⟨l, hl⟩ := hmid.curChain
        have hnotin : (nxt, nyt) ∉ l := by
          intro hmem
          have hbd := hl.mem_dist _ hmem
          have : ((cur.d + 1 : Nat) : ℕ∞) < ((cur.d : Nat) : ℕ∞) :=
            lt_of_lt_of_le hlt hbd
          have : cur.d + 1 < cur.d := by exact_mod_cast this
          omega
        have hupd_at : updateDM dist2 nxt nyt ((cur.d + 1 : Nat) : ℕ∞) nxt nyt =
            ((cur.d + 1 : Nat) : ℕ∞) := by
          unfold updateDM
          rw [if_pos ⟨rfl, rfl⟩]
        have hlext : Chain tm (gx, gy) (updateDM dist2 nxt nyt ((cur.d + 1 : Nat) : ℕ∞))
            (nxt, nyt) (cur.d + 1) (l ++ [(nxt, nyt)]) :=
          Chain.step (hl.mono hmono2) hadj hinb hwalk2 hnotin (le_of_eq hupd_at)
        have hdlt : cur.d + 1 < tm.width * tm.height := hlext.d_lt hg
        have hgoalne : ¬ (gx = nxt ∧ gy = nyt) := by
          rintro ⟨h1, h2⟩
          rw [← h1, ← h2, hmid.goal0] at hlt
          exact absurd hlt (by
            intro hcon
            have : cur.d + 1 < 0 := by exact_mod_cast hcon
            omega)
        have hupd_off : ∀ x y, ¬ (x = nxt ∧ y = nyt) →
            updateDM dist2 nxt nyt ((cur.d + 1 : Nat) : ℕ∞) x y = dist2 x y := by
          intro x y h
          unfold updateDM
          rw [if_neg h]
        refine
          { mono := fun x y => le_trans (hmono2 x y) (hmid.mono x y)
            goal0 := ?_
            curChain := ⟨l, hl.mono hmono2⟩
            sound := ?_
            esSound := ?_
            restSound := fun e he =>
              (hmid.restSound e he).imp (fun l2 hl2 => hl2.mono hmono2)
            frontier := ?_
            measure := ?_ }
        · rw [hupd_off gx gy hgoalne]
          exact hmid.goal0
        · intro x y n hn
          by_cases hxy : x = nxt ∧ y = nyt
          · obtain ⟨hx2, hy2⟩ := hxy
            subst hx2
            subst hy2
            rw [hupd_at] at hn
            have hneq : n = cur.d + 1 := by exact_mod_cast hn.symm
            subst hneq
            exact ⟨l ++ [(nxt, nyt)], hlext⟩
          · rw [hupd_off x y hxy] at hn
            obtain ⟨l2, hl2⟩ := hmid.sound x y n hn
            exact ⟨l2, hl2.mono hmono2⟩
        · intro e he
          rcases List.mem_append.mp he with he | he
          · obtain ⟨⟨l2, hl2⟩, hde⟩ := hmid.esSound e he
            exact ⟨⟨l2, hl2.mono hmono2⟩, le_trans (hmono2 e.x e.y) hde⟩
          · rw [List.mem_singleton] at he
            subst he
            exact ⟨⟨l ++ [(nxt, nyt)], hlext⟩, le_of_eq hupd_at⟩
        · intro x y n hn
          by_cases hxy : x = nxt ∧ y = nyt
          · refine Or.inr (Or.inr (Or.inl ⟨⟨nxt, nyt, cur.d + 1⟩,
              List.mem_append_right _ (List.mem_singleton.mpr rfl), hxy.1.symm, hxy.2.symm, ?_⟩))
            rw [hxy.1, hxy.2, hupd_at] at hn
            have hneq : n = cur.d + 1 := by exact_mod_cast hn.symm
            show cur.d + 1 ≤ n
            omega
          · rw [hupd_off x y hxy] at hn
            rcases hmid.frontier x y n hn with h1 | h2 | h3 | ⟨hx, hy, hd, hobls⟩
            · refine Or.inl ?_
              intro c hadj2 hcin hcw
              exact le_trans (hmono2 c.1 c.2) (h1 c hadj2 hcin hcw)
            · exact Or.inr (Or.inl h2)
            · obtain ⟨e, he, hex, hey, hed⟩ := h3
              exact Or.inr (Or.inr (Or.inl ⟨e, List.mem_append_left _ he, hex, hey, hed⟩))
            · refine Or.inr (Or.inr (Or.inr ⟨hx, hy, hd, ?_⟩))
              intro off2 hoff2 hnotin2 c hc1 hc2 hcin hcw
              by_cases heq : off2 = off
              · subst heq
                have hcx : c.1 = nxt := by omega
                have hcy : c.2 = nyt := by omega
                rw [hcx, hcy, hupd_at]
              · have := hobls off2 hoff2 (by
                  intro hmem
                  rcases List.mem_cons.mp hmem with h | h
                  · exact heq h
                  · exact hnotin2 h) c hc1 hc2 hcin hcw
                exact le_trans (hmono2 c.1 c.2) this
        · have hcap : capN (tm.width * tm.height) ((cur.d + 1 : Nat) : ℕ∞) <
              capN (tm.width * tm.height) (dist2 nxt nyt) :=
            capN_lt_of_lt _ _ _ hdlt hlt
          have hphi : Phi tm (updateDM dist2 nxt nyt ((cur.d + 1 : Nat) : ℕ∞)) <
              Phi tm dist2 :=
            Phi_update_lt tm dist2 nxt nyt ⟨hinb.1, hinb.2⟩ _ hcap
          have hms := hmid.measure
          simp only [List.length_append, List.length_singleton]
          omega
      · rw [if_neg hlt]
        refine midInv_shrink hmid ?_
        intro c hc1 hc2 _ _
        have hcx : c.1 = ((cur.x : Int) + off.1).toNat := by omega
        have hcy : c.2 = ((cur.y : Int) + off.2).toNat := by omega
        rw [hcx, hcy]
        exact not_lt.mp hlt
    · rw [if_neg hw]
      refine midInv_shrink hmid ?_
      intro c hc1 hc2 _ hcw
      exfalso
      rw [hc1, hc2] at hcw
      exact hw hcw
  · rw [if_neg hb]
    refine midInv_shrink hmid ?_
    intro c hc1 hc2 hcin _
    exfalso
    apply hb
    have h1 : (0 : Int) ≤ (c.1 : Int) := Int.natCast_nonneg _
    have h2 : (c.1 : Int) < (tm.width : Int) := by exact_mod_cast hcin.1
    have h3 : (0 : Int) ≤ (c.2 : Int) := Int.natCast_nonneg _
    have h4 : (c.2 : Int) < (tm.height : Int) := by exact_mod_cast hcin.2
    omega

theorem midInv_fold {tm : TileMap} {gx gy : Nat} (hg : InB tm (gx, gy))
    {dist : DistMap} {rest : List QEntry} {cur : QEntry} :
    ∀ (offs : List (Int × Int)), (∀ o ∈ offs, o ∈ offsets4) →
    ∀ (dist2 : DistMap) (es : List QEntry),
    MidInv tm gx gy dist rest cur offs dist2 es →
    MidInv tm gx gy dist rest cur []
      (offs.foldl (relaxNeighbor tm cur) (dist2, es)).1
      (offs.foldl (relaxNeighbor tm cur) (dist2, es)).2 := by
  intro offs
  induction offs with
  | nil => exact fun _ dist2 es h => h
  | cons off offs2 ih =>
    intro hsub dist2 es hmid
    rw [List.foldl_cons]
    have h1 := midInv_relax hg (hsub off (List.mem_cons_self _ _)) hmid
    exact ih (fun o ho => hsub o (List.mem_cons_of_mem _ ho)) _ _ h1

theorem midInv_init {tm : TileMap} {gx gy : Nat} {dist : DistMap} {cur : QEntry}
    {rest : List QEntry} (hInv : BfsInv tm gx gy (cur :: rest) dist) :
    MidInv tm gx gy dist rest cur offsets4 dist [] where
  mono := fun _ _ => le_refl _
  goal0 := hInv.goal0
  curChain := hInv.qsound cur (List.mem_cons_self _ _)
  sound := hInv.sound
  esSound := by intro e he; cases he
  restSound := fun e he => hInv.qsound e (List.mem_cons_of_mem _ he)
  frontier := by
    intro x y n hn
    rcases hInv.frontier x y n hn with h1 | ⟨e, he, hex, hey, hed⟩
    · exact Or.inl h1
    · rcases List.mem_cons.mp he with rfl | he2
      · refine Or.inr (Or.inr (Or.inr ⟨hex.symm, hey.symm, hed, ?_⟩))
        intro off hoff hnot
        exact absurd hoff hnot
      · exact Or.inr (Or.inl ⟨e, he2, hex, hey, hed⟩)
  measure := by simp

theorem midInv_to_bfsInv {tm : TileMap} {gx gy : Nat} {dist : DistMap}
    {rest : List QEntry} {cur : QEntry} {dist2 : DistMap} {es : List QEntry}
    (hmid : MidInv tm gx gy dist rest cur [] dist2 es) :
    BfsInv tm gx gy (rest ++ es) dist2 where
  goal0 := hmid.goal0
  sound := hmid.sound
  qsound := by
    intro e he
    rcases List.mem_append.mp he with he | he
    · exact hmid.restSound e he
    · exact (hmid.esSound e he).1
  frontier := by
    intro x y n hn
    rcases hmid.frontier x y n hn with h1 | h2 | h3 | ⟨hx, hy, hd, hobls⟩
    · exact Or.inl h1
    · obtain ⟨e, he, hp⟩ := h2
      exact Or.inr ⟨e, List.mem_append_left _ he, hp⟩
    · obtain ⟨e, he, hp⟩ := h3
      exact Or.inr ⟨e, List.mem_append_right _ he, hp⟩
    · refine Or.inl ?_
      intro c hadj hcin hcw
      obtain ⟨off, hoff, hc1, hc2⟩ := hadj
      have hle := hobls off hoff (List.not_mem_nil off) c
        (by rw [hc1, hx]) (by rw [hc2, hy]) hcin hcw
      calc dist2 c.1 c.2 ≤ ((cur.d + 1 : Nat) : ℕ∞) := hle
      _ ≤ ((n + 1 : Nat) : ℕ∞) := by exact_mod_cast Nat.succ_le_succ hd

theorem processEntry_invariant {tm : TileMap} {gx gy : Nat} (hg : InB tm (gx, gy))
    {dist : DistMap} {cur : QEntry} {rest : List QEntry}
    (hInv : BfsInv tm gx gy (cur :: rest) dist) :
    BfsInv tm gx gy (rest ++ (processEntry tm dist cur).2) (processEntry tm dist cur).1 ∧
    (rest ++ (processEntry tm dist cur).2).length + 2 * Phi tm (processEntry tm dist cur).1 <
      (cur :: rest).length + 2 * Phi tm dist := by
  have hmid := midInv_fold hg offsets4 (fun o ho => ho) dist [] (midInv_init hInv)
  refine ⟨midInv_to_bfsInv hmid, ?_⟩
  have hms := hmid.measure
  simp only [List.length_append, List.length_cons]
  unfold processEntry
  omega

theorem bfs_reaches_final {tm : TileMap} {gx gy : Nat} (hg : InB tm (gx, gy)) :
    ∀ (fuel : Nat) (q : List QEntry) (dist : DistMap),
    BfsInv tm gx gy q dist →
    q.length + 2 * Phi tm dist < fuel →
    BfsInv tm gx gy [] (bfs tm fuel q dist) := by
  intro fuel
  induction fuel with
  | zero =>
    intro q dist _ hM
    omega
  | succ fuel ih =>
    intro q dist hInv hM
    cases q with
    | nil => exact hInv
    | cons cur rest =>
      obtain ⟨hInv2, hM2⟩ := processEntry_invariant hg hInv
      show BfsInv tm gx gy []
        (bfs tm fuel (rest ++ (processEntry tm dist cur).2) (processEntry tm dist cur).1)
      apply ih _ _ hInv2
      simp only [List.length_cons] at hM hM2
      omega

theorem generateDistanceMap_final (tm : TileMap) (gx gy : Nat)
    (hgx : gx < tm.width) (hgy : gy < tm.height) :
    BfsInv tm gx gy [] (generateDistanceMap tm gx gy) := by
  unfold generateDistanceMap
  have hat : updateDM (fun _ _ => ⊤) gx gy ((0 : Nat) : ℕ∞) gx gy = ((0 : Nat) : ℕ∞) := by
    unfold updateDM
    rw [if_pos ⟨rfl, rfl⟩]
  have hoff : ∀ x y, ¬ (x = gx ∧ y = gy) →
      updateDM (fun _ _ => ⊤) gx gy ((0 : Nat) : ℕ∞) x y = ⊤ := by
    intro x y h
    unfold updateDM
    rw [if_neg h]
  have hbase : Chain tm (gx, gy) (updateDM (fun _ _ => ⊤) gx gy ((0 : Nat) : ℕ∞))
      (gx, gy) 0 [(gx, gy)] := Chain.base (le_of_eq hat)
  apply bfs_reaches_final ⟨hgx, hgy⟩
  · refine
      { goal0 := hat
        sound := ?_
        qsound := ?_
        frontier := ?_ }
    · intro x y n hn
      by_cases hxy : x = gx ∧ y = gy
      · obtain ⟨rfl, rfl⟩ := hxy
        rw [hat] at hn
        have : n = 0 := by exact_mod_cast hn.symm
        subst this
        exact ⟨[(x, y)], hbase⟩
      · rw [hoff x y hxy] at hn
        cases hn
    · intro e he
      rw [List.mem_singleton] at he
      subst he
      exact ⟨[(gx, gy)], hbase⟩
    · intro x y n hn
      by_cases hxy : x = gx ∧ y = gy
      · obtain ⟨rfl, rfl⟩ := hxy
        rw [hat] at hn
        have : n = 0 := by exact_mod_cast hn.symm
        exact Or.inr ⟨⟨x, y, 0⟩, List.mem_singleton.mpr rfl, rfl, rfl, Nat.zero_le n⟩
      · rw [hoff x y hxy] at hn
        cases hn
  · have hp := Phi_le tm (updateDM (fun _ _ => ⊤) gx gy ((0 : Nat) : ℕ∞))
    simp only [List.length_singleton]
    have h2 : 2 * (tm.width * tm.height) * (tm.width * tm.height)
        = 2 * ((tm.width * tm.height) * (tm.width * tm.height)) := by ring
    omega

theorem dist_le_path {tm : TileMap} {gx gy : Nat} {dist : DistMap}
    (hfin : BfsInv tm gx gy [] dist) :
    ∀ {c : Nat × Nat} {d : Nat}, Path tm (gx, gy) c d → dist c.1 c.2 ≤ ((d : Nat) : ℕ∞) := by
  intro c d hp
  induction hp with
  | base => exact le_of_eq hfin.goal0
  | step hprev hadj hin hwalk ih =>
    rename_i c2 n2 d2
    obtain ⟨m, hmeq, hmle⟩ := WithTop.le_coe_iff.mp ih
    have hmeq2 : dist c2.1 c2.2 = ((m : Nat) : ℕ∞) := by exact_mod_cast hmeq
    rcases hfin.frontier c2.1 c2.2 m hmeq2 with hall | ⟨e, he, _⟩
    · calc dist n2.1 n2.2 ≤ ((m + 1 : Nat) : ℕ∞) := hall n2 hadj hin hwalk
      _ ≤ ((d2 + 1 : Nat) : ℕ∞) := by exact_mod_cast Nat.succ_le_succ hmle
    · cases he

/-- C1: for a walkable in-bounds goal, `generateDistanceMap` gives the goal
distance 0, gives every cell reachable from the goal by 4-connected walkable
steps the minimum step count, and marks every non-walkable cell and every
unreachable cell `Infinity` (`⊤`). -/
theorem c1_distance_map (tm : TileMap) (gx gy : Nat)
    (hgx : gx < tm.width) (hgy : gy < tm.height)
    (hgw : tm.isWalkable gx gy = true) :
    generateDistanceMap tm gx gy gx gy = ((0 : Nat) : ℕ∞) ∧
    (∀ x y, (∃ d, Path tm (gx, gy) (x, y) d) →
      ∃ n, generateDistanceMap tm gx gy x y = ((n : Nat) : ℕ∞) ∧
        Path tm (gx, gy) (x, y) n ∧
        ∀ m, Path tm (gx, gy) (x, y) m → n ≤ m) ∧
    (∀ (x y : Nat), tm.isWalkable x y = false → generateDistanceMap tm gx gy x y = ⊤) ∧
    (∀ x y, (¬ ∃ d, Path tm (gx, gy) (x, y) d) → generateDistanceMap tm gx gy x y = ⊤) := by
  have hfin := generateDistanceMap_final tm gx gy hgx hgy
  refine ⟨hfin.goal0, ?_, ?_, ?_⟩
  · intro x y hreach
    obtain ⟨d0, hp0⟩ := hreach
    have hub := dist_le_path hfin hp0
    obtain ⟨n, hneq, _⟩ := WithTop.le_coe_iff.mp hub
    have hneq2 : generateDistanceMap tm gx gy x y = ((n : Nat) : ℕ∞) := by
      exact_mod_cast hneq
    obtain ⟨l, hch⟩ := hfin.sound x y n hneq2
    refine ⟨n, hneq2, hch.to_path, ?_⟩
    intro m hm
    have hub2 := dist_le_path hfin hm
    rw [hneq2] at hub2
    exact_mod_cast hub2
  · intro x y hnw
    by_contra hne
    obtain ⟨n, hneq⟩ := WithTop.ne_top_iff_exists.mp hne
    obtain ⟨l, hch⟩ := hfin.sound x y n hneq.symm
    rcases hch.endpoint with heq | hwalk
    · have : tm.isWalkable x y = true := by
        have hx : x = gx := congrArg Prod.fst heq
        have hy : y = gy := congrArg Prod.snd heq
        rw [hx, hy]
        exact hgw
      rw [this] at hnw
      cases hnw
    · rw [hwalk] at hnw
      cases hnw
  · intro x y hunreach
    by_contra hne
    obtain ⟨n, hneq⟩ := WithTop.ne_top_iff_exists.mp hne
    obtain ⟨l, hch⟩ := hfin.sound x y n hneq.symm
    exact hunreach ⟨n, hch.to_path⟩

/-- A 1x1 map whose only cell, the goal, is STONE (non-walkable). -/
def stoneMap : TileMap := ⟨1, 1, [[STONE]]⟩

/-- C1 counterexample: the goal cell is set to distance 0 unconditionally,
even when the goal tile is not walkable, so a non-walkable cell ends up
with a finite distance instead of `Infinity` as the claim requires. -/
theorem c1_counterexample :
    generateDistanceMap stoneMap 0 0 0 0 = ((0 : Nat) : ℕ∞) ∧
    stoneMap.isWalkable 0 0 = false := by decide

/-- A 2x1 all-GRASS map used to instantiate the C1 theorem. -/
def rowMap : TileMap := ⟨2, 1, [[GRASS, GRASS]]⟩

/-- Witness for C1 on the 2x1 GRASS map with goal (0,0). -/
theorem c1_distance_map_witness :
    generateDistanceMap rowMap 0 0 0 0 = ((0 : Nat) : ℕ∞) ∧
    (∀ x y, (∃ d, Path rowMap (0, 0) (x, y) d) →
      ∃ n, generateDistanceMap rowMap 0 0 x y = ((n : Nat) : ℕ∞) ∧
        Path rowMap (0, 0) (x, y) n ∧
        ∀ m, Path rowMap (0, 0) (x, y) m → n ≤ m) ∧
    (∀ (x y : Nat), rowMap.isWalkable x y = false → generateDistanceMap rowMap 0 0 x y = ⊤) ∧
    (∀ x y, (¬ ∃ d, Path rowMap (0, 0) (x, y) d) → generateDistanceMap rowMap 0 0 x y = ⊤) :=
  c1_distance_map rowMap 0 0 (by decide) (by decide) (by decide)

/-! ### C2: `FlowField.generateFlowField` -/

/-- The 8-connected neighbour offsets of `generateFlowField`, in source
order W, E, N, S, NW, NE, SW, SE. -/
def offsets8 : List (Int × Int) :=
  [(-1, 0), (1, 0), (0, -1), (0, 1), (-1, -1), (1, -1), (-1, 1), (1, 1)]

/-- The bounds check `nx >= 0 && nx < width && ny >= 0 && ny < height` for
the neighbour of `(x, y)` at offset `off`. -/
def NbIn (tm : TileMap) (x y : Nat) (off : Int × Int) : Prop :=
  0 ≤ (x : Int) + off.1 ∧ (x : Int) + off.1 < (tm.width : Int) ∧
  0 ≤ (y : Int) + off.2 ∧ (y : Int) + off.2 < (tm.height : Int)

instance (tm : TileMap) (x y : Nat) (off : Int × Int) : Decidable (NbIn tm x y off) := by
  unfold NbIn
  exact inferInstance

/-- The distance-map read `distanceMap[ny][nx]` for the neighbour of
`(x, y)` at offset `off`. -/
def NbD (dist : DistMap) (x y : Nat) (off : Int × Int) : ℕ∞ :=
  dist ((x : Int) + off.1).toNat ((y : Int) + off.2).toNat

/-- The body of the neighbour loop in `generateFlowField`: bounds check and
strict running-minimum update of `(bestDirection, lowestDistance)`. -/
def scanNeighbor (tm : TileMap) (dist : DistMap) (x y : Nat)
    (acc : (Int × Int) × ℕ∞) (off : Int × Int) : (Int × Int) × ℕ∞ :=
  if NbIn tm x y off then
    if NbD dist x y off < acc.2 then (off, NbD dist x y off) else acc
  else acc

/-- Reference recursion computing the first in-bounds offset attaining the
strictly minimal neighbour distance (`none` when no offset is in bounds). -/
def scanMin (tm : TileMap) (dist : DistMap) (x y : Nat) :
    List (Int × Int) → Option ((Int × Int) × ℕ∞)
  | [] => none
  | off :: rest =>
      if NbIn tm x y off then
        match scanMin tm dist x y rest with
        | none => some (off, NbD dist x y off)
        | some (o2, v2) =>
            if v2 < NbD dist x y off then some (o2, v2) else some (off, NbD dist x y off)
      else scanMin tm dist x y rest

/-- The normalisation tail of the per-cell loop:
`length = sqrt(x*x + y*y); if (length > 0) divide both components`. -/
noncomputable def normalize (b : Int × Int) : ℝ × ℝ :=
  if 0 < Real.sqrt ((b.1 : ℝ) * (b.1 : ℝ) + (b.2 : ℝ) * (b.2 : ℝ)) then
    ((b.1 : ℝ) / Real.sqrt ((b.1 : ℝ) * (b.1 : ℝ) + (b.2 : ℝ) * (b.2 : ℝ)),
     (b.2 : ℝ) / Real.sqrt ((b.1 : ℝ) * (b.1 : ℝ) + (b.2 : ℝ) * (b.2 : ℝ)))
  else ((b.1 : ℝ), (b.2 : ℝ))

/-- The per-cell body of `generateFlowField`: zero vector for non-walkable
or unreachable cells, otherwise the best-direction scan followed by the
`length > 0` normalisation. -/
noncomputable def flowVector (tm : TileMap) (dist : DistMap) (x y : Nat) : ℝ × ℝ :=
  if tm.isWalkable x y = false then (0, 0)
  else if dist x y = ⊤ then (0, 0)
  else normalize (offsets8.foldl (scanNeighbor tm dist x y) ((0, 0), dist x y)).1

/-- `FlowField.generateFlowField`: the grid of flow vectors over the
distance map of the goal. -/
noncomputable def generateFlowField (tm : TileMap) (gx gy : Nat) : Nat → Nat → ℝ × ℝ :=
  fun x y => flowVector tm (generateDistanceMap tm gx gy) x y

theorem foldl_scanNeighbor (tm : TileMap) (dist : DistMap) (x y : Nat)
    (l : List (Int × Int)) (b0 : Int × Int) (v0 : ℕ∞) :
    l.foldl (scanNeighbor tm dist x y) (b0, v0) =
      match scanMin tm dist x y l with
      | some (o, v) => if v < v0 then (o, v) else (b0, v0)
      | none => (b0, v0) := by
  induction l generalizing b0 v0 with
  | nil => rfl
  | cons off l ih =>
    rw [List.foldl_cons]
    by_cases hin : NbIn tm x y off
    · by_cases hlt : NbD dist x y off < v0
      · have hstep : scanNeighbor tm dist x y (b0, v0) off =
            (off, NbD dist x y off) := by
          simp [scanNeighbor, hin, hlt]
        rw [hstep, ih]
        simp only [scanMin, if_pos hin]
        cases hsel : scanMin tm dist x y l with
        | none => simp [hlt]
        | some p =>
          obtain ⟨o2, v2⟩ := p
          by_cases hv2 : v2 < NbD dist x y off
          · simp [hv2, lt_trans hv2 hlt]
          · simp [hv2, hlt]
      · have hstep : scanNeighbor tm dist x y (b0, v0) off = (b0, v0) := by
          simp [scanNeighbor, hlt]
        rw [hstep, ih]
        simp only [scanMin, if_pos hin]
        cases hsel : scanMin tm dist x y l with
        | none => simp [hlt]
        | some p =>
          obtain ⟨o2, v2⟩ := p
          by_cases hv2 : v2 < NbD dist x y off
          · simp [hv2]
          · have : ¬ v2 < v0 := fun h =>
              hv2 (lt_of_lt_of_le h (le_of_not_lt hlt))
            simp [hv2, hlt, this]
    · have hstep : scanNeighbor tm dist x y (b0, v0) off = (b0, v0) := by
        simp [scanNeighbor, hin]
      rw [hstep, ih]
      simp only [scanMin, if_neg hin]

theorem scanMin_eq_none_iff (tm : TileMap) (dist : DistMap) (x y : Nat)
    (l : List (Int × Int)) :
    scanMin tm dist x y l = none ↔ ∀ off ∈ l, ¬ NbIn tm x y off := by
  induction l with
  | nil => simp [scanMin]
  | cons off l ih =>
    simp only [scanMin]
    by_cases hin : NbIn tm x y off
    · rw [if_pos hin]
      constructor
      · intro h
        exfalso
        cases hsel : scanMin tm dist x y l with
        | none => rw [hsel] at h; simp at h
        | some p =>
          obtain ⟨o2, v2⟩ := p
          rw [hsel] at h
          by_cases hv2 : v2 < NbD dist x y off <;> simp [hv2] at h
      · intro h
        exact absurd hin (h off (List.mem_cons_self off l))
    · rw [if_neg hin, ih]
      constructor
      · intro h o2 ho2
        rcases List.mem_cons.mp ho2 with rfl | ho2
        · exact hin
        · exact h o2 ho2
      · exact fun h o2 ho2 => h o2 (List.mem_cons_of_mem off ho2)

theorem scanMin_some_spec (tm : TileMap) (dist : DistMap) (x y : Nat)
    (l : List (Int × Int)) (o : Int × Int) (v : ℕ∞)
    (h : scanMin tm dist x y l = some (o, v)) :
    v = NbD dist x y o ∧ NbIn tm x y o ∧
    (∀ off ∈ l, NbIn tm x y off → v ≤ NbD dist x y off) ∧
    ∃ l1 l2, l = l1 ++ o :: l2 ∧
      ∀ off ∈ l1, NbIn tm x y off → v < NbD dist x y off := by
  induction l generalizing o v with
  | nil => simp [scanMin] at h
  | cons a l ih =>
    simp only [scanMin] at h
    by_cases hin : NbIn tm x y a
    · rw [if_pos hin] at h
      split at h
      · rename_i hsel
        obtain ⟨rfl, rfl⟩ : a = o ∧ NbD dist x y a = v := by
          have h2 := Option.some.inj h
          exact ⟨congrArg Prod.fst h2, congrArg Prod.snd h2⟩
        refine ⟨rfl, hin, ?_, [], l, rfl, by simp⟩
        intro o2 ho2 hin2
        rcases List.mem_cons.mp ho2 with rfl | ho2
        · exact le_refl _
        · exact absurd hin2 ((scanMin_eq_none_iff tm dist x y l).mp hsel o2 ho2)
      · rename_i o2 v2 hsel
        obtain ⟨hveq, hin2, hmin2, l1, l2, hsplit, hfirst⟩ := ih o2 v2 hsel
        by_cases hv2 : v2 < NbD dist x y a
        · rw [if_pos hv2] at h
          obtain ⟨rfl, rfl⟩ : o2 = o ∧ v2 = v := by
            have h2 := Option.some.inj h
            exact ⟨congrArg Prod.fst h2, congrArg Prod.snd h2⟩
          refine ⟨hveq, hin2, ?_, a :: l1, l2, by simp [hsplit], ?_⟩
          · intro o3 ho3 hin3
            rcases List.mem_cons.mp ho3 with rfl | ho3
            · exact le_of_lt hv2
            · exact hmin2 o3 ho3 hin3
          · intro o3 ho3 hin3
            rcases List.mem_cons.mp ho3 with rfl | ho3
            · exact hv2
            · exact hfirst o3 ho3 hin3
        · rw [if_neg hv2] at h
          obtain ⟨rfl, rfl⟩ : a = o ∧ NbD dist x y a = v := by
            have h2 := Option.some.inj h
            exact ⟨congrArg Prod.fst h2, congrArg Prod.snd h2⟩
          refine ⟨rfl, hin, ?_, [], l, rfl, by simp⟩
          intro o3 ho3 hin3
          rcases List.mem_cons.mp ho3 with rfl | ho3
          · exact le_refl _
          · exact le_trans (le_of_not_lt hv2) (hmin2 o3 ho3 hin3)
    · rw [if_neg hin] at h
      obtain ⟨hveq, hin2, hmin2, l1, l2, hsplit, hfirst⟩ := ih o v h
      refine ⟨hveq, hin2, ?_, a :: l1, l2, by simp [hsplit], ?_⟩
      · intro o3 ho3 hin3
        rcases List.mem_cons.mp ho3 with rfl | ho3
        · exact absurd hin3 hin
        · exact hmin2 o3 ho3 hin3
      · intro o3 ho3 hin3
        rcases List.mem_cons.mp ho3 with rfl | ho3
        · exact absurd hin3 hin
        · exact hfirst o3 ho3 hin3

theorem norm_sq_div (a b : ℝ) (h : a * a + b * b ≠ 0) :
    (a / Real.sqrt (a * a + b * b)) * (a / Real.sqrt (a * a + b * b)) +
    (b / Real.sqrt (a * a + b * b)) * (b / Real.sqrt (a * a + b * b)) = 1 := by
  have hs : 0 ≤ a * a + b * b := by nlinarith [sq_nonneg a, sq_nonneg b]
  rw [div_mul_div_comm, div_mul_div_comm, Real.mul_self_sqrt hs, ← add_div, div_self h]

theorem normalize_zero : normalize (0, 0) = (0, 0) := by
  simp [normalize]

theorem offsets8_pos_sq {b : Int × Int} (hb : b ∈ offsets8) :
    0 < (b.1 : ℝ) * (b.1 : ℝ) + (b.2 : ℝ) * (b.2 : ℝ) := by
  fin_cases hb <;> norm_num

theorem normalize_offsets8 {b : Int × Int} (hb : b ∈ offsets8) :
    normalize b =
      ((b.1 : ℝ) / Real.sqrt ((b.1 : ℝ) * (b.1 : ℝ) + (b.2 : ℝ) * (b.2 : ℝ)),
       (b.2 : ℝ) / Real.sqrt ((b.1 : ℝ) * (b.1 : ℝ) + (b.2 : ℝ) * (b.2 : ℝ))) ∧
    (normalize b).1 * (normalize b).1 + (normalize b).2 * (normalize b).2 = 1 := by
  have hpos := offsets8_pos_sq hb
  have heq : normalize b =
      ((b.1 : ℝ) / Real.sqrt ((b.1 : ℝ) * (b.1 : ℝ) + (b.2 : ℝ) * (b.2 : ℝ)),
       (b.2 : ℝ) / Real.sqrt ((b.1 : ℝ) * (b.1 : ℝ) + (b.2 : ℝ) * (b.2 : ℝ))) := by
    unfold normalize
    rw [if_pos (Real.sqrt_pos.mpr hpos)]
  refine ⟨heq, ?_⟩
  rw [heq]
  exact norm_sq_div _ _ (ne_of_gt hpos)

theorem chain_pred_offset {tm : TileMap} {gx gy x y : Nat} {D : DistMap} {n : Nat}
    {l : List (Nat × Nat)} (hg : InB tm (gx, gy))
    (hch : Chain tm (gx, gy) D (x, y) n l) (hpos : 0 < n) :
    tm.isWalkable x y = true ∧
    ∃ off ∈ offsets8, NbIn tm x y off ∧ NbD D x y off < ((n : Nat) : ℕ∞) := by
  cases hch with
  | base _ => exact absurd hpos (lt_irrefl 0)
  | step hprev hadj hin hwalk hnm hd =>
    rename_i c d l2
    obtain ⟨off4, hoff4, hx, hy⟩ := hadj
    have hcin : InB tm c := Chain.mem_inb hg hprev c hprev.endpoint_mem
    have hdc : D c.1 c.2 ≤ ((d : Nat) : ℕ∞) := Chain.mem_dist hprev c hprev.endpoint_mem
    refine ⟨hwalk, (-off4.1, -off4.2), ?_, ?_, ?_⟩
    · fin_cases hoff4 <;> decide
    · have hc1 : (0 : Int) ≤ (c.1 : Int) := Int.natCast_nonneg c.1
      have hc2 : (0 : Int) ≤ (c.2 : Int) := Int.natCast_nonneg c.2
      have hw1 : (c.1 : Int) < (tm.width : Int) := by exact_mod_cast hcin.1
      have hw2 : (c.2 : Int) < (tm.height : Int) := by exact_mod_cast hcin.2
      refine ⟨?_, ?_, ?_, ?_⟩ <;> dsimp only <;> omega
    · have h1 : ((x : Int) + -off4.1) = (c.1 : Int) := by dsimp only at hx; omega
      have h2 : ((y : Int) + -off4.2) = (c.2 : Int) := by dsimp only at hy; omega
      show NbD D x y (-off4.1, -off4.2) < _
      unfold NbD
      dsimp only
      rw [h1, h2, Int.toNat_natCast, Int.toNat_natCast]
      calc D c.1 c.2 ≤ ((d : Nat) : ℕ∞) := hdc
      _ < ((d + 1 : Nat) : ℕ∞) := by exact_mod_cast Nat.lt_succ_self d

/-- C2: each flow-field cell with finite positive distance stores the
normalised offset of the first in-bounds neighbour, in the order
W, E, N, S, NW, NE, SW, SE, attaining the strictly lowest distance below
the cell's own, so its squared magnitude is 1; non-walkable cells,
unreachable cells, and cells with no strictly-lower neighbour store the
zero vector. -/
theorem c2_flow_field (tm : TileMap) (gx gy : Nat)
    (hgx : gx < tm.width) (hgy : gy < tm.height) :
    (∀ x y : Nat, tm.isWalkable x y = false → generateFlowField tm gx gy x y = (0, 0)) ∧
    (∀ x y : Nat, generateDistanceMap tm gx gy x y = ⊤ →
      generateFlowField tm gx gy x y = (0, 0)) ∧
    (∀ (x y n : Nat), generateDistanceMap tm gx gy x y = ((n : Nat) : ℕ∞) →
      (∀ off ∈ offsets8, NbIn tm x y off →
        ¬ NbD (generateDistanceMap tm gx gy) x y off < ((n : Nat) : ℕ∞)) →
      generateFlowField tm gx gy x y = (0, 0)) ∧
    (∀ (x y n : Nat), generateDistanceMap tm gx gy x y = ((n : Nat) : ℕ∞) → 0 < n →
      ∃ boff ∈ offsets8,
        NbIn tm x y boff ∧
        NbD (generateDistanceMap tm gx gy) x y boff < ((n : Nat) : ℕ∞) ∧
        (∀ off ∈ offsets8, NbIn tm x y off →
          NbD (generateDistanceMap tm gx gy) x y boff ≤
            NbD (generateDistanceMap tm gx gy) x y off) ∧
        (∃ l1 l2, offsets8 = l1 ++ boff :: l2 ∧
          ∀ off ∈ l1, NbIn tm x y off →
            NbD (generateDistanceMap tm gx gy) x y boff <
              NbD (generateDistanceMap tm gx gy) x y off) ∧
        generateFlowField tm gx gy x y =
          ((boff.1 : ℝ) /
             Real.sqrt ((boff.1 : ℝ) * (boff.1 : ℝ) + (boff.2 : ℝ) * (boff.2 : ℝ)),
           (boff.2 : ℝ) /
             Real.sqrt ((boff.1 : ℝ) * (boff.1 : ℝ) + (boff.2 : ℝ) * (boff.2 : ℝ))) ∧
        (generateFlowField tm gx gy x y).1 * (generateFlowField tm gx gy x y).1 +
          (generateFlowField tm gx gy x y).2 * (generateFlowField tm gx gy x y).2 = 1) := by
  refine ⟨?_, ?_, ?_, ?_⟩
  · intro x y h
    show flowVector tm (generateDistanceMap tm gx gy) x y = (0, 0)
    unfold flowVector
    rw [if_pos h]
  · intro x y h
    show flowVector tm (generateDistanceMap tm gx gy) x y = (0, 0)
    unfold flowVector
    by_cases hw : tm.isWalkable x y = false
    · rw [if_pos hw]
    · rw [if_neg hw, if_pos h]
  · intro x y n hdn hnone
    show flowVector tm (generateDistanceMap tm gx gy) x y = (0, 0)
    unfold flowVector
    by_cases hw : tm.isWalkable x y = false
    · rw [if_pos hw]
    · rw [if_neg hw, if_neg (by rw [hdn]; exact WithTop.coe_ne_top)]
      have hfold :
          (offsets8.foldl (scanNeighbor tm (generateDistanceMap tm gx gy) x y)
            ((0, 0), generateDistanceMap tm gx gy x y)).1 = ((0, 0) : Int × Int) := by
        rw [foldl_scanNeighbor]
        cases hsel : scanMin tm (generateDistanceMap tm gx gy) x y offsets8 with
        | none => rfl
        | some p =>
          obtain ⟨o, v⟩ := p
          obtain ⟨hveq, hin, _, l1, l2, hsplit, _⟩ :=
            scanMin_some_spec tm (generateDistanceMap tm gx gy) x y offsets8 o v hsel
          have ho8 : o ∈ offsets8 := by
            rw [hsplit]
            exact List.mem_append_right _ (List.mem_cons_self _ _)
          have hnlt : ¬ v < generateDistanceMap tm gx gy x y := by
            rw [hdn, hveq]
            exact hnone o ho8 hin
          dsimp only
          rw [if_neg hnlt]
      rw [hfold, normalize_zero]
  · intro x y n hdn hpos
    have hfin := generateDistanceMap_final tm gx gy hgx hgy
    obtain ⟨l, hch⟩ := hfin.sound x y n hdn
    obtain ⟨hwalk, off0, hoff0mem, hoff0in, hoff0lt⟩ :=
      chain_pred_offset ⟨hgx, hgy⟩ hch hpos
    cases hsel : scanMin tm (generateDistanceMap tm gx gy) x y offsets8 with
    | none =>
      exact absurd hoff0in
        ((scanMin_eq_none_iff tm (generateDistanceMap tm gx gy) x y offsets8).mp
          hsel off0 hoff0mem)
    | some p =>
      obtain ⟨o, v⟩ := p
      obtain ⟨hveq, hin, hminAll, l1, l2, hsplit, hfirst⟩ :=
        scanMin_some_spec tm (generateDistanceMap tm gx gy) x y offsets8 o v hsel
      have ho8 : o ∈ offsets8 := by
        rw [hsplit]
        exact List.mem_append_right _ (List.mem_cons_self _ _)
      have hvlt : v < ((n : Nat) : ℕ∞) :=
        lt_of_le_of_lt (hminAll off0 hoff0mem hoff0in) hoff0lt
      have hfold :
          (offsets8.foldl (scanNeighbor tm (generateDistanceMap tm gx gy) x y)
            ((0, 0), generateDistanceMap tm gx gy x y)).1 = o := by
        rw [foldl_scanNeighbor, hsel]
        dsimp only
        rw [hdn, if_pos hvlt]
      have hfv : generateFlowField tm gx gy x y = normalize o := by
        show flowVector tm (generateDistanceMap tm gx gy) x y = normalize o
        unfold flowVector
        rw [if_neg (by rw [hwalk]; simp), if_neg (by rw [hdn]; exact WithTop.coe_ne_top),
          hfold]
      obtain ⟨hnorm, hmag⟩ := normalize_offsets8 ho8
      refine ⟨o, ho8, hin, hveq ▸ hvlt, ?_, ⟨l1, l2, hsplit, ?_⟩, ?_, ?_⟩
      · intro off hmem hinoff
        exact hveq ▸ hminAll off hmem hinoff
      · intro off hmem hinoff
        exact hveq ▸ hfirst off hmem hinoff
      · exact hfv.trans hnorm
      · rw [hfv]
        exact hmag

/-- Witness for C2 on the 2x1 GRASS map with goal (0,0). -/
theorem c2_flow_field_witness :
    (∀ x y : Nat, rowMap.isWalkable x y = false → generateFlowField rowMap 0 0 x y = (0, 0)) ∧
    (∀ x y : Nat, generateDistanceMap rowMap 0 0 x y = ⊤ →
      generateFlowField rowMap 0 0 x y = (0, 0)) ∧
    (∀ (x y n : Nat), generateDistanceMap rowMap 0 0 x y = ((n : Nat) : ℕ∞) →
      (∀ off ∈ offsets8, NbIn rowMap x y off →
        ¬ NbD (generateDistanceMap rowMap 0 0) x y off < ((n : Nat) : ℕ∞)) →
      generateFlowField rowMap 0 0 x y = (0, 0)) ∧
    (∀ (x y n : Nat), generateDistanceMap rowMap 0 0 x y = ((n : Nat) : ℕ∞) → 0 < n →
      ∃ boff ∈ offsets8,
        NbIn rowMap x y boff ∧
        NbD (generateDistanceMap rowMap 0 0) x y boff < ((n : Nat) : ℕ∞) ∧
        (∀ off ∈ offsets8, NbIn rowMap x y off →
          NbD (generateDistanceMap rowMap 0 0) x y boff ≤
            NbD (generateDistanceMap rowMap 0 0) x y off) ∧
        (∃ l1 l2, offsets8 = l1 ++ boff :: l2 ∧
          ∀ off ∈ l1, NbIn rowMap x y off →
            NbD (generateDistanceMap rowMap 0 0) x y boff <
              NbD (generateDistanceMap rowMap 0 0) x y off) ∧
        generateFlowField rowMap 0 0 x y =
          ((boff.1 : ℝ) /
             Real.sqrt ((boff.1 : ℝ) * (boff.1 : ℝ) + (boff.2 : ℝ) * (boff.2 : ℝ)),
           (boff.2 : ℝ) /
             Real.sqrt ((boff.1 : ℝ) * (boff.1 : ℝ) + (boff.2 : ℝ) * (boff.2 : ℝ))) ∧
        (generateFlowField rowMap 0 0 x y).1 * (generateFlowField rowMap 0 0 x y).1 +
          (generateFlowField rowMap 0 0 x y).2 * (generateFlowField rowMap 0 0 x y).2 = 1) :=
  c2_flow_field rowMap 0 0 (by decide) (by decide)

end TowerDefense
